import Mathlib

/-!
Verification of the build-time OpenAPI schema patcher (`build.rs`):
the operation-id synthesizer, the schema simplifier (`simplify_schema`)
and the schema merger (`merge_into`), modelled over a shallow embedding
of `serde_json::Value`.

Objects are modelled as association lists in insertion order; the
operations (`lookupKV`, `insertKeyFields`, `eraseAll`) behave as the
`serde_json::Map` operations on the duplicate-free field lists that
`serde_json` actually produces.
-/

namespace CfApi

/-- Shallow embedding of `serde_json::Value`. Numbers are modelled as
integers; none of the verified code inspects numeric values. -/
inductive Json where
  | null : Json
  | bool : Bool → Json
  | num : Int → Json
  | str : String → Json
  | arr : List Json → Json
  | obj : List (String × Json) → Json

mutual

/-- Structural (`PartialEq`-style) equality on `Json`. -/
def beqJson : Json → Json → Bool
  | .null, .null => true
  | .bool a, .bool b => a == b
  | .num a, .num b => a == b
  | .str a, .str b => a == b
  | .arr xs, .arr ys => beqJsonList xs ys
  | .obj fs, .obj gs => beqJsonFields fs gs
  | _, _ => false

def beqJsonList : List Json → List Json → Bool
  | [], [] => true
  | x :: xs, y :: ys => beqJson x y && beqJsonList xs ys
  | _, _ => false

def beqJsonFields : List (String × Json) → List (String × Json) → Bool
  | [], [] => true
  | (k, v) :: fs, (l, w) :: gs => k == l && beqJson v w && beqJsonFields fs gs
  | _, _ => false

end

theorem beqJson_eq_true_iff : ∀ a b : Json, beqJson a b = true ↔ a = b := by
  refine beqJson.induct
    (fun a b => beqJson a b = true ↔ a = b)
    (fun fs gs => beqJsonFields fs gs = true ↔ fs = gs)
    (fun xs ys => beqJsonList xs ys = true ↔ xs = ys)
    ?_ ?_ ?_ ?_ ?_ ?_ ?_ ?_ ?_ ?_ ?_ ?_ ?_
  · simp [beqJson]
  · intro a b; simp [beqJson]
  · intro a b; simp [beqJson]
  · intro a b; simp [beqJson]
  · intro xs ys ih; simp [beqJson, ih]
  · intro fs gs ih; simp [beqJson, ih]
  · intro t x h1 h2 h3 h4 h5 h6
    cases t <;> cases x
    all_goals
      first
        | exact (h1 rfl rfl).elim
        | exact (h2 _ _ rfl rfl).elim
        | exact (h3 _ _ rfl rfl).elim
        | exact (h4 _ _ rfl rfl).elim
        | exact (h5 _ _ rfl rfl).elim
        | exact (h6 _ _ rfl rfl).elim
        | simp [beqJson]
  · simp [beqJsonList]
  · intro x xs y ys ih1 ih2; simp [beqJsonList, ih1, ih2]
  · intro t x h1 h2
    cases t <;> cases x
    all_goals
      first
        | exact (h1 rfl rfl).elim
        | exact (h2 _ _ _ _ rfl rfl).elim
        | simp [beqJsonList]
  · simp [beqJsonFields]
  · intro k v fs l w gs ih1 ih2
    simp [beqJsonFields, ih1, ih2, and_assoc]
  · intro t x h1 h2
    match t, x with
    | [], [] => exact (h1 rfl rfl).elim
    | (k, v) :: fs, (l, w) :: gs => exact (h2 _ _ _ _ _ _ rfl rfl).elim
    | [], _ :: _ => simp [beqJsonFields]
    | _ :: _, [] => simp [beqJsonFields]

instance : DecidableEq Json := fun a b => decidable_of_iff _ (beqJson_eq_true_iff a b)

/-- First-match lookup in a field list (`serde_json::Map::get`). -/
def lookupKV : List (String × Json) → String → Option Json
  | [], _ => none
  | (k', v) :: rest, k => if k' = k then some v else lookupKV rest k

/-- `Value::get(key)`: `Some` only on objects. -/
def getKey : Json → String → Option Json
  | .obj fs, k => lookupKV fs k
  | _, _ => none

/-- `Value::get(key).is_some()`. -/
def hasKey (j : Json) (k : String) : Bool := (getKey j k).isSome

/-- `Map::remove(key)` on a field list (removes the binding of `k`). -/
def eraseAll (fs : List (String × Json)) (k : String) : List (String × Json) :=
  fs.filter (fun p => p.1 ≠ k)

/-- `Map::insert(key, value)` on a field list: replace the binding if the
key is present, otherwise add a binding. -/
def insertKeyFields (fs : List (String × Json)) (k : String) (v : Json) :
    List (String × Json) :=
  if fs.any (fun p => p.1 = k) then
    fs.map (fun p => if p.1 = k then (k, v) else p)
  else
    fs ++ [(k, v)]

/-- `Value::is_object()`. -/
def isObj : Json → Bool
  | .obj _ => true
  | _ => false

/-! ## The enum-normalization step (`simplify_schema`, first block) -/

/-- First block of `simplify_schema`: if the node has an `enum` key,
remove `maxLength`/`minLength`/`pattern`/`format` and default `type`
to `"string"` when absent. -/
def enumFix : Json → Json
  | .obj fs =>
    if (lookupKV fs "enum").isSome then
      let fs1 := eraseAll (eraseAll (eraseAll (eraseAll fs "maxLength") "minLength") "pattern") "format"
      let fs2 := if (lookupKV fs1 "type").isSome then fs1
                 else fs1 ++ [("type", .str "string")]
      .obj fs2
    else .obj fs
  | j => j

/-! ## The merger (`merge_into`) -/

/-- Properties phase of `merge_into`: pour the source's `properties`
entries into the target's `properties` map (last write wins). -/
def mergeProps (target source : Json) : Json :=
  match getKey source "properties" with
  | some (.obj sp) =>
    match target with
    | .obj tf =>
      match lookupKV tf "properties" with
      | some (.obj tp) =>
        .obj (insertKeyFields tf "properties"
          (.obj (sp.foldl (fun acc p => insertKeyFields acc p.1 p.2) tp)))
      | _ => target
    | _ => target
  | _ => target

/-- The `required` union fold: push each item not already present. -/
def pushNew (acc : List Json) (items : List Json) : List Json :=
  items.foldl (fun a i => if i ∈ a then a else a ++ [i]) acc

/-- Required phase of `merge_into`: `entry("required").or_insert([])`,
then push each source item not already contained. -/
def mergeRequired (target source : Json) : Json :=
  match getKey source "required" with
  | some (.arr srcReq) =>
    match target with
    | .obj tf =>
      let tf1 := if (lookupKV tf "required").isSome then tf
                 else tf ++ [("required", .arr [])]
      match lookupKV tf1 "required" with
      | some (.arr tr) =>
        .obj (insertKeyFields tf1 "required" (.arr (pushNew tr srcReq)))
      | _ => .obj tf1
    | _ => target
  | _ => target

/-- Other-fields phase of `merge_into`: copy every source field other
than `properties`/`required` that the (current) target does not have. -/
def mergeOther (target source : Json) : Json :=
  match source with
  | .obj sf =>
    match target with
    | .obj tf =>
      .obj (sf.foldl
        (fun acc p =>
          if p.1 = "properties" ∨ p.1 = "required" ∨ (lookupKV acc p.1).isSome
          then acc else acc ++ [(p.1, p.2)])
        tf)
    | _ => target
  | _ => target

/-- `merge_into(target, source)`: skip any source with a `$ref` key,
otherwise run the three phases in order. -/
def mergeInto (target source : Json) : Json :=
  if hasKey source "$ref" then target
  else mergeOther (mergeRequired (mergeProps target source) source) source

/-! ## The simplifier (`simplify_schema`) -/

/-- The fresh accumulator `json!({"type": "object", "properties": {}})`. -/
def initAcc : Json := .obj [("type", .str "object"), ("properties", .obj [])]

/-- The generic-object fallback `json!({"type": "object"})`. -/
def cObj : Json := .obj [("type", .str "object")]

/-- Merge all `allOf` members into the fresh accumulator, in list order. -/
def mergeAll (L : List Json) : Json := L.foldl mergeInto initAcc

/-- `merged.get("properties").and_then(as_object).map(|o| !o.is_empty()).unwrap_or(false)`. -/
def hasProperties (m : Json) : Bool :=
  match getKey m "properties" with
  | some (.obj fs) => !fs.isEmpty
  | _ => false

/-- The `allOf` fallback: first member without a `$ref` key, else the
generic object. -/
def allOfFallback (L : List Json) : Json :=
  (L.find? (fun m => !(hasKey m "$ref"))).getD cObj

/-- Map a fallible function over the values of a field list. -/
def mapValsM (f : Json → Option Json) : List (String × Json) → Option (List (String × Json))
  | [] => some []
  | (k, v) :: rest =>
    match f v, mapValsM f rest with
    | some v', some rest' => some ((k, v') :: rest')
    | _, _ => none

/-- Structural recursion of `simplify_schema` over `properties`. -/
def stepProps (f : Json → Option Json) : Json → Option Json
  | .obj fs =>
    match lookupKV fs "properties" with
    | some (.obj ps) =>
      match mapValsM f ps with
      | some ps' => some (.obj (insertKeyFields fs "properties" (.obj ps')))
      | none => none
    | _ => some (.obj fs)
  | s => some s

/-- Structural recursion of `simplify_schema` over `items`. -/
def stepItems (f : Json → Option Json) : Json → Option Json
  | .obj fs =>
    match lookupKV fs "items" with
    | some it =>
      match f it with
      | some it' => some (.obj (insertKeyFields fs "items" it'))
      | none => none
    | none => some (.obj fs)
  | s => some s

/-- Structural recursion of `simplify_schema` over `additionalProperties`
(only when it is itself an object). -/
def stepAddl (f : Json → Option Json) : Json → Option Json
  | .obj fs =>
    match lookupKV fs "additionalProperties" with
    | some ap =>
      if isObj ap then
        match f ap with
        | some ap' => some (.obj (insertKeyFields fs "additionalProperties" ap'))
        | none => none
      else some (.obj fs)
    | none => some (.obj fs)
  | s => some s

/-- The whole structural-recursion tail of `simplify_schema`. -/
def structuralStep (f : Json → Option Json) (s : Json) : Option Json :=
  match stepProps f s with
  | some s1 =>
    match stepItems f s1 with
    | some s2 => stepAddl f s2
    | none => none
  | none => none

/-- One unfolding of `simplify_schema`, with `ih` standing for the
recursive occurrences. -/
def simplifyGo (ih : Json → Option Json) (s : Json) : Option Json :=
  let s1 := enumFix s
  match getKey s1 "allOf" with
  | some (.arr L) =>
    let merged := mergeAll L
    ih (if hasProperties merged then merged else allOfFallback L)
  | _ =>
    match getKey s1 "oneOf" with
    | some (.arr (x :: _)) => ih x
    | _ =>
      match getKey s1 "anyOf" with
      | some (.arr (x :: _)) => ih x
      | _ => structuralStep ih s1

/-- Fuelled `simplify_schema`: `none` means the fuel ran out. The
recursion is structural on the fuel, so the function is total and
computable; termination of the underlying recursion is the statement
that some fuel always suffices. -/
def simplifyF : Nat → Json → Option Json :=
  fun n => n.rec (fun _ => none) (fun _ ih => simplifyGo ih)

theorem simplifyF_zero (s : Json) : simplifyF 0 s = none := rfl

theorem simplifyF_succ (n : Nat) (s : Json) :
    simplifyF (n + 1) s = simplifyGo (simplifyF n) s := rfl

/-! ## The operation-id synthesizer (`main`, paths loop) -/

/-- The recognized HTTP method keys. -/
def METHODS : List String :=
  ["get", "put", "post", "delete", "options", "head", "patch", "trace"]

/-- `str::replace(c, r)` for a single-character pattern and replacement. -/
def repC (c r : Char) (cs : List Char) : List Char :=
  cs.map (fun x => if x = c then r else x)

/-- `str::replace(c, "")` for a single-character pattern. -/
def delC (c : Char) (cs : List Char) : List Char :=
  cs.filter (fun x => x ≠ c)

/-- The path slug: `trim_start_matches('/')`, then `/`→`_`, strip `{`
and `}`, then `-`→`_`. -/
def slugChars (cs : List Char) : List Char :=
  repC '-' '_' (delC '}' (delC '{' (repC '/' '_' (cs.dropWhile (fun x => x = '/')))))

/-- The synthesized slug for a path template string. -/
def slugify (p : String) : String := String.mk (slugChars p.toList)

/-- Patch a single operation: only for recognized methods, only for
object operations, only when `operationId` is absent. -/
def fixOp (method pathName : String) (operation : Json) : Json :=
  if METHODS.contains method then
    match operation with
    | .obj fields =>
      if (lookupKV fields "operationId").isSome then operation
      else .obj (fields ++ [("operationId", .str (method ++ "_" ++ slugify pathName))])
    | _ => operation
  else operation

/-- Patch one path item: walk its method-keyed entries. -/
def fixPathItem (pathName : String) (item : Json) : Json :=
  match item with
  | .obj ops => .obj (ops.map (fun p => (p.1, fixOp p.1 pathName p.2)))
  | _ => item

/-- The operation-id synthesizer pass over the whole document. -/
def addOperationIds (doc : Json) : Json :=
  match doc with
  | .obj fs =>
    match lookupKV fs "paths" with
    | some (.obj pe) =>
      .obj (insertKeyFields fs "paths"
        (.obj (pe.map (fun q => (q.1, fixPathItem q.1 q.2)))))
    | _ => doc
  | _ => doc

/-! ## Basic lemmas on the field-list operations -/

theorem lookupKV_mem {fs : List (String × Json)} {k : String} {v : Json}
    (h : lookupKV fs k = some v) : (k, v) ∈ fs := by
  induction fs with
  | nil => simp [lookupKV] at h
  | cons p rest ih =>
    obtain ⟨k', v'⟩ := p
    by_cases hk : k' = k
    · subst hk
      simp [lookupKV] at h
      simp [h]
    · simp [lookupKV, hk] at h
      exact List.mem_cons_of_mem _ (ih h)

theorem sizeOf_pos (j : Json) : 0 < sizeOf j := by
  cases j <;> simp

theorem mem_val_sizeOf_lt {fs : List (String × Json)} {k : String} {v : Json}
    (h : (k, v) ∈ fs) : sizeOf v < sizeOf (Json.obj fs) := by
  induction fs with
  | nil => simp at h
  | cons p rest ih =>
    rcases List.mem_cons.mp h with h1 | h1
    · subst h1; simp; omega
    · have := ih h1; simp at this ⊢; omega

theorem mem_sizeOf_lt {xs : List Json} {x : Json} (h : x ∈ xs) :
    sizeOf x < sizeOf (Json.arr xs) := by
  induction xs with
  | nil => simp at h
  | cons y rest ih =>
    rcases List.mem_cons.mp h with h1 | h1
    · subst h1; simp; omega
    · have := ih h1; simp at this ⊢; omega

theorem lookupKV_append_none {fs gs : List (String × Json)} {k : String}
    (h : lookupKV fs k = none) : lookupKV (fs ++ gs) k = lookupKV gs k := by
  induction fs with
  | nil => simp
  | cons p rest ih =>
    obtain ⟨a, b⟩ := p
    by_cases hk : a = k
    · simp [lookupKV, hk] at h
    · simp only [lookupKV, hk, if_false, if_neg hk] at h
      simpa [lookupKV, hk] using ih h

theorem lookupKV_append_some {fs gs : List (String × Json)} {k : String} {v : Json}
    (h : lookupKV fs k = some v) : lookupKV (fs ++ gs) k = some v := by
  induction fs with
  | nil => simp [lookupKV] at h
  | cons p rest ih =>
    obtain ⟨a, b⟩ := p
    by_cases hk : a = k
    · subst hk
      simp only [lookupKV, if_pos rfl] at h
      simp [lookupKV]
      simpa using h
    · simp only [lookupKV, if_neg hk] at h
      simpa [lookupKV, hk] using ih h

/-- Core map identity: replacing the binding of `k` and then looking up `k`. -/
theorem lookupKV_map_replace (fs : List (String × Json)) (k : String) (v : Json)
    (hany : fs.any (fun p => p.1 = k) = true) :
    lookupKV (fs.map (fun p => if p.1 = k then (k, v) else p)) k = some v := by
  induction fs with
  | nil => simp at hany
  | cons p rest ih =>
    obtain ⟨a, b⟩ := p
    by_cases hk : a = k
    · subst hk
      rw [List.map_cons, if_pos rfl]
      simp [lookupKV]
    · simp only [List.any_cons, Bool.or_eq_true, decide_eq_true_eq] at hany
      rcases hany with h1 | h1
      · exact absurd h1 hk
      · rw [List.map_cons, if_neg (by simpa using hk)]
        simpa [lookupKV, hk] using ih h1

theorem lookupKV_map_replace_ne (fs : List (String × Json)) (k k' : String) (v : Json)
    (h : k' ≠ k) :
    lookupKV (fs.map (fun p => if p.1 = k then (k, v) else p)) k' = lookupKV fs k' := by
  induction fs with
  | nil => rfl
  | cons p rest ih =>
    obtain ⟨a, b⟩ := p
    by_cases hk : a = k
    · subst hk
      rw [List.map_cons, if_pos rfl]
      simp [lookupKV, Ne.symm h, ih]
    · rw [List.map_cons, if_neg (by simpa using hk)]
      by_cases hk' : a = k'
      · subst hk'
        simp [lookupKV]
      · simp [lookupKV, hk', ih]

theorem lookupKV_none_of_not_any {fs : List (String × Json)} {k : String}
    (hany : ¬ fs.any (fun p => p.1 = k) = true) : lookupKV fs k = none := by
  induction fs with
  | nil => rfl
  | cons p rest ih =>
    obtain ⟨a, b⟩ := p
    simp only [List.any_cons, Bool.or_eq_true, decide_eq_true_eq, not_or] at hany
    simp [lookupKV, hany.1, ih (by simpa using hany.2)]

theorem lookupKV_insert_self (fs : List (String × Json)) (k : String) (v : Json) :
    lookupKV (insertKeyFields fs k v) k = some v := by
  unfold insertKeyFields
  split <;> rename_i hany
  · exact lookupKV_map_replace fs k v hany
  · rw [lookupKV_append_none (lookupKV_none_of_not_any hany)]
    simp [lookupKV]

theorem lookupKV_insert_ne (fs : List (String × Json)) (k k' : String) (v : Json)
    (h : k' ≠ k) : lookupKV (insertKeyFields fs k v) k' = lookupKV fs k' := by
  unfold insertKeyFields
  split <;> rename_i hany
  · exact lookupKV_map_replace_ne fs k k' v h
  · by_cases hfs : (lookupKV fs k').isSome
    · obtain ⟨w, hw⟩ := Option.isSome_iff_exists.mp hfs
      rw [lookupKV_append_some hw, hw]
    · have hnone : lookupKV fs k' = none := Option.not_isSome_iff_eq_none.mp hfs
      rw [lookupKV_append_none hnone, hnone]
      simp [lookupKV, Ne.symm h]

theorem mem_insertKeyFields {fs : List (String × Json)} {k k' : String} {v v' : Json}
    (h : (k', v') ∈ insertKeyFields fs k v) :
    (k' = k ∧ v' = v) ∨ ((k', v') ∈ fs ∧ k' ≠ k) := by
  unfold insertKeyFields at h
  split at h <;> rename_i hany
  · obtain ⟨p, hp, heq⟩ := List.mem_map.mp h
    obtain ⟨a, b⟩ := p
    by_cases hpk : a = k
    · rw [if_pos (by simpa using hpk)] at heq
      obtain ⟨h1, h2⟩ := Prod.mk.injEq .. ▸ heq
      left
      exact ⟨h1.symm, h2.symm⟩
    · rw [if_neg (by simpa using hpk)] at heq
      right
      obtain ⟨h1, h2⟩ := Prod.mk.injEq .. ▸ heq
      subst h1
      subst h2
      exact ⟨hp, hpk⟩
  · rcases List.mem_append.mp h with h1 | h1
    · right
      refine ⟨h1, ?_⟩
      intro hk
      subst hk
      exact hany (List.any_eq_true.mpr ⟨(k', v'), h1, by simp⟩)
    · left
      simpa using h1

theorem lookupKV_eraseAll_self (fs : List (String × Json)) (k : String) :
    lookupKV (eraseAll fs k) k = none := by
  induction fs with
  | nil => rfl
  | cons p rest ih =>
    obtain ⟨a, b⟩ := p
    by_cases hk : a = k
    · simpa [eraseAll, hk] using ih
    · simpa [eraseAll, lookupKV, hk] using ih

theorem lookupKV_eraseAll_ne (fs : List (String × Json)) (k k' : String) (h : k' ≠ k) :
    lookupKV (eraseAll fs k) k' = lookupKV fs k' := by
  induction fs with
  | nil => rfl
  | cons p rest ih =>
    obtain ⟨a, b⟩ := p
    by_cases hk : a = k
    · subst hk
      simpa [eraseAll, lookupKV, Ne.symm h] using ih
    · by_cases hpk : a = k'
      · subst hpk
        simp [eraseAll, hk, lookupKV]
      · simpa [eraseAll, hk, lookupKV, hpk] using ih

theorem mem_eraseAll {fs : List (String × Json)} {k k' : String} {v' : Json} :
    (k', v') ∈ eraseAll fs k ↔ (k', v') ∈ fs ∧ k' ≠ k := by
  simp [eraseAll, List.mem_filter]

/-! ## The subterm relation -/

/-- Reflexive-transitive subterm relation on `Json`. -/
inductive SubV : Json → Json → Prop
  | refl (j : Json) : SubV j j
  | arrMem {j x : Json} {xs : List Json} : x ∈ xs → SubV j x → SubV j (.arr xs)
  | objMem {j v : Json} {k : String} {fs : List (String × Json)} :
      (k, v) ∈ fs → SubV j v → SubV j (.obj fs)

theorem SubV.sizeOf_le {j t : Json} (h : SubV j t) : sizeOf j ≤ sizeOf t := by
  induction h with
  | refl => exact le_refl _
  | arrMem hmem _ ih => exact le_of_lt (lt_of_le_of_lt ih (mem_sizeOf_lt hmem))
  | objMem hmem _ ih => exact le_of_lt (lt_of_le_of_lt ih (mem_val_sizeOf_lt hmem))

theorem SubV.trans {a b c : Json} (h1 : SubV a b) (h2 : SubV b c) : SubV a c := by
  induction h2 with
  | refl => exact h1
  | arrMem hmem _ ih => exact SubV.arrMem hmem ih
  | objMem hmem _ ih => exact SubV.objMem hmem ih

/-- `t` occurs inside some member of the list `L`. -/
def MemSub (t : Json) (L : List Json) : Prop := ∃ m ∈ L, SubV t m

theorem MemSub.sizeOf_lt {t : Json} {L : List Json} (h : MemSub t L) :
    sizeOf t < sizeOf (Json.arr L) := by
  obtain ⟨m, hm, hsub⟩ := h
  exact lt_of_le_of_lt hsub.sizeOf_le (mem_sizeOf_lt hm)

theorem MemSub.of_subV_arr {t : Json} {L : List Json} (h : SubV t (.arr L))
    (hne : t ≠ .arr L) : MemSub t L := by
  cases h with
  | refl => exact absurd rfl hne
  | arrMem hmem hsub => exact ⟨_, hmem, hsub⟩

/-! ## Lemmas about `enumFix` -/

theorem getKey_obj (fs : List (String × Json)) (k : String) :
    getKey (.obj fs) k = lookupKV fs k := rfl

/-- The four erasures of `enumFix`, as one field list. -/
def erase4 (fs : List (String × Json)) : List (String × Json) :=
  eraseAll (eraseAll (eraseAll (eraseAll fs "maxLength") "minLength") "pattern") "format"

theorem enumFix_obj (fs : List (String × Json)) :
    enumFix (.obj fs) =
      if (lookupKV fs "enum").isSome then
        .obj (if (lookupKV (erase4 fs) "type").isSome then erase4 fs
              else erase4 fs ++ [("type", .str "string")])
      else .obj fs := rfl

theorem enumFix_nonobj {j : Json} (h : isObj j = false) : enumFix j = j := by
  cases j <;> first | rfl | simp [isObj] at h

theorem lookupKV_erase4_ne (fs : List (String × Json)) (k : String)
    (h1 : k ≠ "maxLength") (h2 : k ≠ "minLength") (h3 : k ≠ "pattern")
    (h4 : k ≠ "format") : lookupKV (erase4 fs) k = lookupKV fs k := by
  unfold erase4
  rw [lookupKV_eraseAll_ne _ _ _ h4, lookupKV_eraseAll_ne _ _ _ h3,
    lookupKV_eraseAll_ne _ _ _ h2, lookupKV_eraseAll_ne _ _ _ h1]

theorem lookupKV_erase4_stripped (fs : List (String × Json)) (k : String)
    (h : k = "maxLength" ∨ k = "minLength" ∨ k = "pattern" ∨ k = "format") :
    lookupKV (erase4 fs) k = none := by
  unfold erase4
  rcases h with rfl | rfl | rfl | rfl
  · rw [lookupKV_eraseAll_ne _ _ _ (by decide), lookupKV_eraseAll_ne _ _ _ (by decide),
      lookupKV_eraseAll_ne _ _ _ (by decide)]
    exact lookupKV_eraseAll_self fs _
  · rw [lookupKV_eraseAll_ne _ _ _ (by decide), lookupKV_eraseAll_ne _ _ _ (by decide)]
    exact lookupKV_eraseAll_self _ _
  · rw [lookupKV_eraseAll_ne _ _ _ (by decide)]
    exact lookupKV_eraseAll_self _ _
  · exact lookupKV_eraseAll_self _ _

theorem lookupKV_append_single_ne (fs : List (String × Json)) (k k2 : String) (v2 : Json)
    (h : k ≠ k2) : lookupKV (fs ++ [(k2, v2)]) k = lookupKV fs k := by
  cases hfs : lookupKV fs k with
  | some w => exact lookupKV_append_some hfs
  | none =>
    rw [lookupKV_append_none hfs]
    simp [lookupKV, Ne.symm h]

theorem getKey_enumFix (s : Json) (k : String)
    (h1 : k ≠ "maxLength") (h2 : k ≠ "minLength") (h3 : k ≠ "pattern")
    (h4 : k ≠ "format") (h5 : k ≠ "type") :
    getKey (enumFix s) k = getKey s k := by
  cases s with
  | obj fs =>
    rw [enumFix_obj]
    split <;> rename_i henum
    · rw [getKey_obj, getKey_obj]
      split <;> rename_i htype
      · exact lookupKV_erase4_ne fs k h1 h2 h3 h4
      · rw [lookupKV_append_single_ne _ _ _ _ h5]
        exact lookupKV_erase4_ne fs k h1 h2 h3 h4
    · rfl
  | null => rfl
  | bool b => rfl
  | num n => rfl
  | str t => rfl
  | arr xs => rfl

theorem enumFix_enum_invariant (s : Json) (h : (getKey (enumFix s) "enum").isSome) :
    getKey (enumFix s) "maxLength" = none ∧ getKey (enumFix s) "minLength" = none ∧
    getKey (enumFix s) "pattern" = none ∧ getKey (enumFix s) "format" = none ∧
    (getKey (enumFix s) "type").isSome := by
  cases s with
  | obj fs =>
    rw [enumFix_obj] at h ⊢
    by_cases henum : (lookupKV fs "enum").isSome
    · rw [if_pos henum] at h ⊢
      by_cases htype : (lookupKV (erase4 fs) "type").isSome
      · rw [if_pos htype]
        simp only [getKey_obj]
        exact ⟨lookupKV_erase4_stripped _ _ (by simp), lookupKV_erase4_stripped _ _ (by simp),
          lookupKV_erase4_stripped _ _ (by simp), lookupKV_erase4_stripped _ _ (by simp), htype⟩
      · rw [if_neg htype]
        have hnone := Option.not_isSome_iff_eq_none.mp htype
        simp only [getKey_obj]
        refine ⟨?_, ?_, ?_, ?_, ?_⟩
        · rw [lookupKV_append_single_ne _ _ _ _ (by decide)]
          exact lookupKV_erase4_stripped _ _ (by simp)
        · rw [lookupKV_append_single_ne _ _ _ _ (by decide)]
          exact lookupKV_erase4_stripped _ _ (by simp)
        · rw [lookupKV_append_single_ne _ _ _ _ (by decide)]
          exact lookupKV_erase4_stripped _ _ (by simp)
        · rw [lookupKV_append_single_ne _ _ _ _ (by decide)]
          exact lookupKV_erase4_stripped _ _ (by simp)
        · rw [lookupKV_append_none hnone]
          simp [lookupKV]
    · rw [if_neg henum] at h
      rw [if_neg henum]
      simp only [getKey_obj] at h
      exact absurd h (by simpa using henum)
  | null => rw [enumFix_nonobj (j := Json.null) rfl] at h; simp [getKey] at h
  | bool b => rw [enumFix_nonobj (j := Json.bool b) rfl] at h; simp [getKey] at h
  | num n => rw [enumFix_nonobj (j := Json.num n) rfl] at h; simp [getKey] at h
  | str t => rw [enumFix_nonobj (j := Json.str t) rfl] at h; simp [getKey] at h
  | arr xs => rw [enumFix_nonobj (j := Json.arr xs) rfl] at h; simp [getKey] at h

theorem enumFix_type_default (fs : List (String × Json))
    (he : (lookupKV fs "enum").isSome) (ht : lookupKV fs "type" = none) :
    getKey (enumFix (.obj fs)) "type" = some (.str "string") := by
  rw [enumFix_obj, if_pos he, getKey_obj]
  have h4 : lookupKV (erase4 fs) "type" = none := by
    rw [lookupKV_erase4_ne _ _ (by decide) (by decide) (by decide) (by decide)]
    exact ht
  rw [if_neg (by simp [h4])]
  rw [lookupKV_append_none h4]
  simp [lookupKV]

theorem enumFix_type_preserved (fs : List (String × Json)) {w : Json}
    (ht : lookupKV fs "type" = some w) :
    getKey (enumFix (.obj fs)) "type" = some w := by
  rw [enumFix_obj]
  split <;> rename_i henum
  · have h4 : lookupKV (erase4 fs) "type" = some w := by
      rw [lookupKV_erase4_ne _ _ (by decide) (by decide) (by decide) (by decide)]
      exact ht
    rw [getKey_obj, if_pos (by simp [h4])]
    exact h4
  · exact ht

theorem enumFix_obj_shape (fs : List (String × Json)) :
    ∃ gs, enumFix (.obj fs) = .obj gs := by
  rw [enumFix_obj]
  split
  · exact ⟨_, rfl⟩
  · exact ⟨fs, rfl⟩

/-! ## Lemmas about the structural-recursion steps -/

theorem stepProps_spec {f : Json → Option Json} {s r : Json}
    (h : stepProps f s = some r) :
    (∃ fs ps ps', s = .obj fs ∧ lookupKV fs "properties" = some (.obj ps) ∧
      mapValsM f ps = some ps' ∧
      r = .obj (insertKeyFields fs "properties" (.obj ps'))) ∨
    (r = s ∧ ∀ fs ps, s = .obj fs → lookupKV fs "properties" ≠ some (.obj ps)) := by
  unfold stepProps at h
  split at h
  · rename_i fs
    split at h
    · rename_i ps hps
      split at h
      · rename_i ps' hps'
        left
        exact ⟨fs, ps, ps', rfl, hps, hps', by simpa using h.symm⟩
      · simp at h
    · rename_i hnot
      right
      refine ⟨by simpa using h.symm, ?_⟩
      intro fs' ps heq hlk
      obtain rfl : fs' = fs := by simpa [Json.obj.injEq] using heq.symm
      exact hnot _ hlk
  · rename_i hno
    right
    refine ⟨by simpa using h.symm, ?_⟩
    intro fs ps heq
    exact absurd heq (by intro hh; subst hh; exact hno fs rfl)

theorem stepItems_spec {f : Json → Option Json} {s r : Json}
    (h : stepItems f s = some r) :
    (∃ fs it it', s = .obj fs ∧ lookupKV fs "items" = some it ∧ f it = some it' ∧
      r = .obj (insertKeyFields fs "items" it')) ∨
    (r = s ∧ ∀ fs, s = .obj fs → lookupKV fs "items" = none) := by
  unfold stepItems at h
  split at h
  · rename_i fs
    split at h
    · rename_i it hit
      split at h
      · rename_i it' hit'
        left
        exact ⟨fs, it, it', rfl, hit, hit', by simpa using h.symm⟩
      · simp at h
    · rename_i hnone
      right
      refine ⟨by simpa using h.symm, ?_⟩
      intro fs' heq
      obtain rfl : fs' = fs := by simpa [Json.obj.injEq] using heq.symm
      exact hnone
  · rename_i hno
    right
    refine ⟨by simpa using h.symm, ?_⟩
    intro fs heq
    exact absurd heq (by intro hh; subst hh; exact hno fs rfl)

theorem stepAddl_spec {f : Json → Option Json} {s r : Json}
    (h : stepAddl f s = some r) :
    (∃ fs ap ap', s = .obj fs ∧ lookupKV fs "additionalProperties" = some ap ∧
      isObj ap = true ∧ f ap = some ap' ∧
      r = .obj (insertKeyFields fs "additionalProperties" ap')) ∨
    (r = s ∧ ∀ fs ap, s = .obj fs → lookupKV fs "additionalProperties" = some ap →
      isObj ap = false) := by
  unfold stepAddl at h
  split at h
  · rename_i fs
    split at h
    · rename_i ap hap
      split at h <;> rename_i hobj
      · split at h
        · rename_i ap' hap'
          left
          exact ⟨fs, ap, ap', rfl, hap, hobj, hap', by simpa using h.symm⟩
        · simp at h
      · right
        refine ⟨by simpa using h.symm, ?_⟩
        intro fs' ap2 heq hlk
        obtain rfl : fs' = fs := by simpa [Json.obj.injEq] using heq.symm
        rw [hap] at hlk
        obtain rfl : ap2 = ap := by simpa using hlk.symm
        exact Bool.not_eq_true _ ▸ hobj
    · rename_i hnone
      right
      refine ⟨by simpa using h.symm, ?_⟩
      intro fs' ap heq hlk
      obtain rfl : fs' = fs := by simpa [Json.obj.injEq] using heq.symm
      rw [hnone] at hlk
      exact absurd hlk (by simp)
  · rename_i hno
    right
    refine ⟨by simpa using h.symm, ?_⟩
    intro fs ap heq
    exact absurd heq (by intro hh; subst hh; exact hno fs rfl)

theorem structuralStep_decomp {f : Json → Option Json} {s r : Json}
    (h : structuralStep f s = some r) :
    ∃ s1 s2, stepProps f s = some s1 ∧ stepItems f s1 = some s2 ∧
      stepAddl f s2 = some r := by
  unfold structuralStep at h
  split at h
  · rename_i s1 h1
    split at h
    · rename_i s2 h2
      exact ⟨s1, s2, h1, h2, h⟩
    · simp at h
  · simp at h

/-! ## Evaluation lemmas for the simplifier's branches -/

theorem stepProps_eval_obj (f : Json → Option Json) (fs : List (String × Json))
    (ps : List (String × Json)) (hps : lookupKV fs "properties" = some (.obj ps)) :
    stepProps f (.obj fs) =
      (mapValsM f ps).map (fun ps' => .obj (insertKeyFields fs "properties" (.obj ps'))) := by
  simp only [stepProps]
  rw [hps]
  show (match mapValsM f ps with
    | some ps' => some (Json.obj (insertKeyFields fs "properties" (Json.obj ps')))
    | none => none) = _
  cases mapValsM f ps <;> rfl

theorem stepProps_eval_skip (f : Json → Option Json) (fs : List (String × Json))
    (h : ∀ ps, lookupKV fs "properties" ≠ some (.obj ps)) :
    stepProps f (.obj fs) = some (.obj fs) := by
  simp only [stepProps]

theorem stepProps_eval_nonobj (f : Json → Option Json) {s : Json} (h : isObj s = false) :
    stepProps f s = some s := by
  cases s <;> first | rfl | simp [isObj] at h

theorem stepItems_eval_obj (f : Json → Option Json) (fs : List (String × Json))
    (it : Json) (hit : lookupKV fs "items" = some it) :
    stepItems f (.obj fs) = (f it).map (fun it' => .obj (insertKeyFields fs "items" it')) := by
  simp only [stepItems]
  rw [hit]
  show (match f it with
    | some it' => some (Json.obj (insertKeyFields fs "items" it'))
    | none => none) = _
  cases f it <;> rfl

theorem stepItems_eval_skip (f : Json → Option Json) (fs : List (String × Json))
    (h : lookupKV fs "items" = none) : stepItems f (.obj fs) = some (.obj fs) := by
  simp only [stepItems]
  rw [h]

theorem stepItems_eval_nonobj (f : Json → Option Json) {s : Json} (h : isObj s = false) :
    stepItems f s = some s := by
  cases s <;> first | rfl | simp [isObj] at h

theorem stepAddl_eval_obj (f : Json → Option Json) (fs : List (String × Json))
    (ap : Json) (hap : lookupKV fs "additionalProperties" = some ap)
    (hobj : isObj ap = true) :
    stepAddl f (.obj fs) =
      (f ap).map (fun ap' => .obj (insertKeyFields fs "additionalProperties" ap')) := by
  simp only [stepAddl]
  rw [hap]
  show (if isObj ap = true then
      (match f ap with
        | some ap' => some (Json.obj (insertKeyFields fs "additionalProperties" ap'))
        | none => none)
    else some (Json.obj fs)) = _
  rw [if_pos hobj]
  cases f ap <;> rfl

theorem stepAddl_eval_skip_nonobj (f : Json → Option Json) (fs : List (String × Json))
    (ap : Json) (hap : lookupKV fs "additionalProperties" = some ap)
    (hobj : isObj ap = false) : stepAddl f (.obj fs) = some (.obj fs) := by
  simp only [stepAddl]
  rw [hap]
  show (if isObj ap = true then
      (match f ap with
        | some ap' => some (Json.obj (insertKeyFields fs "additionalProperties" ap'))
        | none => none)
    else some (Json.obj fs)) = _
  rw [if_neg (by simp [hobj])]

theorem stepAddl_eval_skip_none (f : Json → Option Json) (fs : List (String × Json))
    (h : lookupKV fs "additionalProperties" = none) :
    stepAddl f (.obj fs) = some (.obj fs) := by
  simp only [stepAddl]
  rw [h]

theorem stepAddl_eval_nonobj (f : Json → Option Json) {s : Json} (h : isObj s = false) :
    stepAddl f s = some s := by
  cases s <;> first | rfl | simp [isObj] at h

theorem structuralStep_eval {f : Json → Option Json} {s s1 s2 r : Json}
    (h1 : stepProps f s = some s1) (h2 : stepItems f s1 = some s2)
    (h3 : stepAddl f s2 = some r) : structuralStep f s = some r := by
  unfold structuralStep
  rw [h1]
  show (match stepItems f s1 with
    | some s2 => stepAddl f s2
    | none => none) = some r
  rw [h2]
  exact h3

theorem structuralStep_nonobj (f : Json → Option Json) {s : Json} (h : isObj s = false) :
    structuralStep f s = some s :=
  structuralStep_eval (stepProps_eval_nonobj f h) (stepItems_eval_nonobj f h)
    (stepAddl_eval_nonobj f h)

theorem simplifyGo_allOf (ih : Json → Option Json) (s : Json) (L : List Json)
    (h : getKey (enumFix s) "allOf" = some (.arr L)) :
    simplifyGo ih s =
      ih (if hasProperties (mergeAll L) then mergeAll L else allOfFallback L) := by
  simp only [simplifyGo]
  rw [h]

theorem simplifyGo_oneOf (ih : Json → Option Json) (s : Json) (x : Json) (xs : List Json)
    (hA : ∀ L, getKey (enumFix s) "allOf" ≠ some (.arr L))
    (h1 : getKey (enumFix s) "oneOf" = some (.arr (x :: xs))) :
    simplifyGo ih s = ih x := by
  simp only [simplifyGo, h1, hA]

theorem simplifyGo_anyOf (ih : Json → Option Json) (s : Json) (x : Json) (xs : List Json)
    (hA : ∀ L, getKey (enumFix s) "allOf" ≠ some (.arr L))
    (hO : ∀ y ys, getKey (enumFix s) "oneOf" ≠ some (.arr (y :: ys)))
    (h1 : getKey (enumFix s) "anyOf" = some (.arr (x :: xs))) :
    simplifyGo ih s = ih x := by
  simp only [simplifyGo, h1, hA, hO]

theorem simplifyGo_structural (ih : Json → Option Json) (s : Json)
    (hA : ∀ L, getKey (enumFix s) "allOf" ≠ some (.arr L))
    (hO : ∀ y ys, getKey (enumFix s) "oneOf" ≠ some (.arr (y :: ys)))
    (hY : ∀ y ys, getKey (enumFix s) "anyOf" ≠ some (.arr (y :: ys))) :
    simplifyGo ih s = structuralStep ih (enumFix s) := by
  simp only [simplifyGo, hA, hO, hY]

/-! ## Monotonicity in the fuel -/

/-- `f` refines to `g`: wherever `f` succeeds, `g` agrees. -/
def OLE (f g : Json → Option Json) : Prop := ∀ v r, f v = some r → g v = some r

theorem mapValsM_mono {f g : Json → Option Json} (hfg : OLE f g) :
    ∀ {l l'}, mapValsM f l = some l' → mapValsM g l = some l' := by
  intro l
  induction l with
  | nil => intro l' h; simpa [mapValsM] using h
  | cons p rest ih =>
    intro l' h
    obtain ⟨k, v⟩ := p
    unfold mapValsM at h ⊢
    cases hfv : f v with
    | none => rw [hfv] at h; simp at h
    | some v' =>
      rw [hfv] at h
      cases hrest : mapValsM f rest with
      | none => rw [hrest] at h; simp at h
      | some rest' =>
        rw [hrest] at h
        rw [hfg v v' hfv, ih hrest]
        exact h

theorem mapValsM_mem {f : Json → Option Json} :
    ∀ {l l'}, mapValsM f l = some l' →
      ∀ {k v'}, (k, v') ∈ l' → ∃ v, (k, v) ∈ l ∧ f v = some v' := by
  intro l
  induction l with
  | nil =>
    intro l' h k v' hmem
    simp [mapValsM] at h
    subst h
    simp at hmem
  | cons p rest ih =>
    intro l' h k v' hmem
    obtain ⟨k0, v0⟩ := p
    unfold mapValsM at h
    cases hfv : f v0 with
    | none => rw [hfv] at h; simp at h
    | some w =>
      rw [hfv] at h
      cases hrest : mapValsM f rest with
      | none => rw [hrest] at h; simp at h
      | some rest' =>
        rw [hrest] at h
        simp only [Option.some.injEq] at h
        subst h
        rcases List.mem_cons.mp hmem with h1 | h1
        · obtain ⟨rfl, rfl⟩ := Prod.mk.injEq .. ▸ h1
          exact ⟨v0, List.mem_cons_self _ _, hfv⟩
        · obtain ⟨v, hv1, hv2⟩ := ih hrest h1
          exact ⟨v, List.mem_cons_of_mem _ hv1, hv2⟩

theorem mapValsM_exists_of_all {f : Json → Option Json} :
    ∀ {l}, (∀ p ∈ l, ∃ w, f p.2 = some w) → ∃ l', mapValsM f l = some l' := by
  intro l
  induction l with
  | nil => intro _; exact ⟨[], rfl⟩
  | cons p rest ih =>
    intro hall
    obtain ⟨k, v⟩ := p
    obtain ⟨w, hw⟩ := hall (k, v) (List.mem_cons_self _ _)
    obtain ⟨rest', hrest⟩ := ih (fun q hq => hall q (List.mem_cons_of_mem _ hq))
    refine ⟨(k, w) :: rest', ?_⟩
    unfold mapValsM
    rw [hw, hrest]

theorem stepProps_mono {f g : Json → Option Json} (hfg : OLE f g) {s r : Json}
    (h : stepProps f s = some r) : stepProps g s = some r := by
  rcases stepProps_spec h with ⟨fs, ps, ps', rfl, hps, hm, rfl⟩ | ⟨rfl, hskip⟩
  · rw [stepProps_eval_obj g fs ps hps, mapValsM_mono hfg hm]
    rfl
  · cases r with
    | obj fs => exact stepProps_eval_skip g fs (fun ps => hskip fs ps rfl)
    | null => rfl
    | bool b => rfl
    | num n => rfl
    | str t => rfl
    | arr xs => rfl

theorem stepItems_mono {f g : Json → Option Json} (hfg : OLE f g) {s r : Json}
    (h : stepItems f s = some r) : stepItems g s = some r := by
  rcases stepItems_spec h with ⟨fs, it, it', rfl, hit, hf, rfl⟩ | ⟨rfl, hskip⟩
  · rw [stepItems_eval_obj g fs it hit, hfg it it' hf]
    rfl
  · cases r with
    | obj fs => exact stepItems_eval_skip g fs (hskip fs rfl)
    | null => rfl
    | bool b => rfl
    | num n => rfl
    | str t => rfl
    | arr xs => rfl

theorem stepAddl_mono {f g : Json → Option Json} (hfg : OLE f g) {s r : Json}
    (h : stepAddl f s = some r) : stepAddl g s = some r := by
  rcases stepAddl_spec h with ⟨fs, ap, ap', rfl, hap, hobj, hf, rfl⟩ | ⟨rfl, hskip⟩
  · rw [stepAddl_eval_obj g fs ap hap hobj, hfg ap ap' hf]
    rfl
  · cases r with
    | obj fs =>
      cases hlk : lookupKV fs "additionalProperties" with
      | none => exact stepAddl_eval_skip_none g fs hlk
      | some ap => exact stepAddl_eval_skip_nonobj g fs ap hlk (hskip fs ap rfl hlk)
    | null => rfl
    | bool b => rfl
    | num n => rfl
    | str t => rfl
    | arr xs => rfl

theorem structuralStep_mono {f g : Json → Option Json} (hfg : OLE f g) {s r : Json}
    (h : structuralStep f s = some r) : structuralStep g s = some r := by
  obtain ⟨s1, s2, h1, h2, h3⟩ := structuralStep_decomp h
  exact structuralStep_eval (stepProps_mono hfg h1) (stepItems_mono hfg h2)
    (stepAddl_mono hfg h3)

theorem optArrCases (o : Option Json) :
    (∃ L, o = some (.arr L)) ∨ (∀ L, o ≠ some (.arr L)) := by
  cases o with
  | none => right; intro L h; exact Option.noConfusion h
  | some w =>
    cases w with
    | arr L => left; exact ⟨L, rfl⟩
    | null => right; intro L h; simp at h
    | bool b => right; intro L h; simp at h
    | num n => right; intro L h; simp at h
    | str t => right; intro L h; simp at h
    | obj gs => right; intro L h; simp at h

theorem optArrConsCases (o : Option Json) :
    (∃ x xs, o = some (.arr (x :: xs))) ∨ (∀ x xs, o ≠ some (.arr (x :: xs))) := by
  cases o with
  | none => right; intro x xs h; exact Option.noConfusion h
  | some w =>
    cases w with
    | arr L =>
      cases L with
      | nil => right; intro x xs h; simp at h
      | cons x xs => left; exact ⟨x, xs, rfl⟩
    | null => right; intro x xs h; simp at h
    | bool b => right; intro x xs h; simp at h
    | num n => right; intro x xs h; simp at h
    | str t => right; intro x xs h; simp at h
    | obj gs => right; intro x xs h; simp at h

/-- The four mutually exclusive branches `simplify_schema` can take
after enum normalization. -/
theorem simplifyBranch (s : Json) :
    (∃ L, getKey (enumFix s) "allOf" = some (.arr L)) ∨
    ((∀ L, getKey (enumFix s) "allOf" ≠ some (.arr L)) ∧
      ∃ x xs, getKey (enumFix s) "oneOf" = some (.arr (x :: xs))) ∨
    ((∀ L, getKey (enumFix s) "allOf" ≠ some (.arr L)) ∧
      (∀ y ys, getKey (enumFix s) "oneOf" ≠ some (.arr (y :: ys))) ∧
      ∃ x xs, getKey (enumFix s) "anyOf" = some (.arr (x :: xs))) ∨
    ((∀ L, getKey (enumFix s) "allOf" ≠ some (.arr L)) ∧
      (∀ y ys, getKey (enumFix s) "oneOf" ≠ some (.arr (y :: ys))) ∧
      (∀ y ys, getKey (enumFix s) "anyOf" ≠ some (.arr (y :: ys)))) := by
  rcases optArrCases (getKey (enumFix s) "allOf") with hA | hA
  · exact Or.inl hA
  rcases optArrConsCases (getKey (enumFix s) "oneOf") with hO | hO
  · exact Or.inr (Or.inl ⟨hA, hO⟩)
  rcases optArrConsCases (getKey (enumFix s) "anyOf") with hY | hY
  · exact Or.inr (Or.inr (Or.inl ⟨hA, hO, hY⟩))
  · exact Or.inr (Or.inr (Or.inr ⟨hA, hO, hY⟩))

theorem simplifyF_mono : ∀ n m s r, n ≤ m → simplifyF n s = some r →
    simplifyF m s = some r := by
  intro n
  induction n with
  | zero =>
    intro m s r _ h
    rw [simplifyF_zero] at h
    exact absurd h (by simp)
  | succ n ih =>
    intro m s r hle h
    obtain ⟨m', rfl⟩ : ∃ m', m = m' + 1 := ⟨m - 1, by omega⟩
    have hle' : n ≤ m' := by omega
    have hOLE : OLE (simplifyF n) (simplifyF m') := fun v w hv => ih m' v w hle' hv
    rw [simplifyF_succ] at h ⊢
    rcases simplifyBranch s with ⟨L, hL⟩ | ⟨hA, x, xs, hx⟩ | ⟨hA, hO, x, xs, hx⟩ |
      ⟨hA, hO, hY⟩
    · rw [simplifyGo_allOf _ s L hL] at h ⊢
      exact ih m' _ r hle' h
    · rw [simplifyGo_oneOf _ s x xs hA hx] at h ⊢
      exact ih m' _ r hle' h
    · rw [simplifyGo_anyOf _ s x xs hA hO hx] at h ⊢
      exact ih m' _ r hle' h
    · rw [simplifyGo_structural _ s hA hO hY] at h ⊢
      exact structuralStep_mono hOLE h

/-! ## Structure of merged accumulators -/

/-- Invariant for accumulators built by `mergeAll L`: apart from the
`type` and `required` bookkeeping fields, every stored value (and every
value inside the `properties` object) comes from inside a member of
`L`. -/
def AccInv (L : List Json) (acc : Json) : Prop :=
  ∃ fs, acc = .obj fs ∧ ∀ k v, (k, v) ∈ fs →
    k = "type" ∨ k = "required" ∨
    (k = "properties" ∧ ∃ ps, v = .obj ps ∧ ∀ k' v', (k', v') ∈ ps → MemSub v' L) ∨
    (k ≠ "properties" ∧ k ≠ "required" ∧ MemSub v L)

theorem AccInv_init (L : List Json) : AccInv L initAcc := by
  refine ⟨_, rfl, ?_⟩
  intro k v hmem
  rcases List.mem_cons.mp hmem with h1 | h1
  · obtain ⟨rfl, rfl⟩ := Prod.mk.injEq .. ▸ h1
    exact Or.inl rfl
  · rcases List.mem_cons.mp h1 with h2 | h2
    · obtain ⟨rfl, rfl⟩ := Prod.mk.injEq .. ▸ h2
      exact Or.inr (Or.inr (Or.inl ⟨rfl, [], rfl, by simp⟩))
    · simp at h2

theorem mem_foldl_insert {sp : List (String × Json)} :
    ∀ {tp : List (String × Json)} {k' : String} {v' : Json},
      (k', v') ∈ sp.foldl (fun acc p => insertKeyFields acc p.1 p.2) tp →
      (k', v') ∈ tp ∨ (k', v') ∈ sp := by
  induction sp with
  | nil => intro tp k' v' h; exact Or.inl h
  | cons p sp' ih =>
    intro tp k' v' h
    rw [List.foldl_cons] at h
    rcases ih h with h1 | h1
    · rcases mem_insertKeyFields h1 with ⟨rfl, rfl⟩ | ⟨h2, _⟩
      · right
        exact List.mem_cons_self _ _
      · exact Or.inl h2
    · right
      exact List.mem_cons_of_mem _ h1

theorem AccInv_mergeProps {L : List Json} {acc m : Json} (hmem : m ∈ L)
    (h : AccInv L acc) : AccInv L (mergeProps acc m) := by
  obtain ⟨tf, rfl, hinv⟩ := h
  cases hsp : getKey m "properties" with
  | none =>
    rw [show mergeProps (.obj tf) m = .obj tf by simp only [mergeProps, hsp]]
    exact ⟨tf, rfl, hinv⟩
  | some w =>
    cases w with
    | obj sp =>
      cases htp : lookupKV tf "properties" with
      | none =>
        rw [show mergeProps (.obj tf) m = .obj tf by simp only [mergeProps, hsp, htp]]
        exact ⟨tf, rfl, hinv⟩
      | some u =>
        cases u with
        | obj tp =>
          rw [show mergeProps (.obj tf) m =
              .obj (insertKeyFields tf "properties"
                (.obj (sp.foldl (fun acc p => insertKeyFields acc p.1 p.2) tp))) by
            simp only [mergeProps, hsp, htp]]
          refine ⟨_, rfl, ?_⟩
          intro k v hv
          rcases mem_insertKeyFields hv with ⟨rfl, rfl⟩ | ⟨h2, hne⟩
          · refine Or.inr (Or.inr (Or.inl ⟨rfl, _, rfl, ?_⟩))
            intro k' v' hv'
            rcases mem_foldl_insert hv' with h3 | h3
            · have := hinv _ _ (lookupKV_mem htp)
              rcases this with h4 | h4 | ⟨_, ps, hps, h4⟩ | ⟨h4, _, _⟩
              · exact absurd h4 (by decide)
              · exact absurd h4 (by decide)
              · obtain rfl : ps = tp := by simpa [Json.obj.injEq] using hps.symm
                exact h4 _ _ h3
              · exact absurd rfl h4
            · have hm_obj : ∃ mf, m = .obj mf ∧ ("properties", .obj sp) ∈ mf := by
                cases m with
                | obj mf => exact ⟨mf, rfl, lookupKV_mem hsp⟩
                | null => simp [getKey] at hsp
                | bool b => simp [getKey] at hsp
                | num n => simp [getKey] at hsp
                | str t => simp [getKey] at hsp
                | arr xs => simp [getKey] at hsp
              obtain ⟨mf, rfl, hmf⟩ := hm_obj
              exact ⟨_, hmem, SubV.objMem hmf (SubV.objMem h3 (SubV.refl _))⟩
          · exact hinv _ _ h2
        | null =>
          rw [show mergeProps (.obj tf) m = .obj tf by simp only [mergeProps, hsp, htp]]
          exact ⟨tf, rfl, hinv⟩
        | bool b =>
          rw [show mergeProps (.obj tf) m = .obj tf by simp only [mergeProps, hsp, htp]]
          exact ⟨tf, rfl, hinv⟩
        | num n =>
          rw [show mergeProps (.obj tf) m = .obj tf by simp only [mergeProps, hsp, htp]]
          exact ⟨tf, rfl, hinv⟩
        | str t =>
          rw [show mergeProps (.obj tf) m = .obj tf by simp only [mergeProps, hsp, htp]]
          exact ⟨tf, rfl, hinv⟩
        | arr xs =>
          rw [show mergeProps (.obj tf) m = .obj tf by simp only [mergeProps, hsp, htp]]
          exact ⟨tf, rfl, hinv⟩
    | null =>
      rw [show mergeProps (.obj tf) m = .obj tf by simp only [mergeProps, hsp]]
      exact ⟨tf, rfl, hinv⟩
    | bool b =>
      rw [show mergeProps (.obj tf) m = .obj tf by simp only [mergeProps, hsp]]
      exact ⟨tf, rfl, hinv⟩
    | num n =>
      rw [show mergeProps (.obj tf) m = .obj tf by simp only [mergeProps, hsp]]
      exact ⟨tf, rfl, hinv⟩
    | str t =>
      rw [show mergeProps (.obj tf) m = .obj tf by simp only [mergeProps, hsp]]
      exact ⟨tf, rfl, hinv⟩
    | arr xs =>
      rw [show mergeProps (.obj tf) m = .obj tf by simp only [mergeProps, hsp]]
      exact ⟨tf, rfl, hinv⟩

theorem AccInv_mergeRequired {L : List Json} {acc m : Json}
    (h : AccInv L acc) : AccInv L (mergeRequired acc m) := by
  obtain ⟨tf, rfl, hinv⟩ := h
  cases hsr : getKey m "required" with
  | none =>
    rw [show mergeRequired (.obj tf) m = .obj tf by simp only [mergeRequired, hsr]]
    exact ⟨tf, rfl, hinv⟩
  | some w =>
    cases w with
    | arr srcReq =>
      have hinv1 : ∀ k v,
          (k, v) ∈ (if (lookupKV tf "required").isSome then tf
            else tf ++ [("required", Json.arr [])]) →
          k = "type" ∨ k = "required" ∨
          (k = "properties" ∧ ∃ ps, v = .obj ps ∧ ∀ k' v', (k', v') ∈ ps → MemSub v' L) ∨
          (k ≠ "properties" ∧ k ≠ "required" ∧ MemSub v L) := by
        intro k v hv
        split at hv
        · exact hinv _ _ hv
        · rcases List.mem_append.mp hv with h1 | h1
          · exact hinv _ _ h1
          · simp only [List.mem_singleton, Prod.mk.injEq] at h1
            obtain ⟨rfl, rfl⟩ := h1
            exact Or.inr (Or.inl rfl)
      cases htr : lookupKV (if (lookupKV tf "required").isSome then tf
          else tf ++ [("required", Json.arr [])]) "required" with
      | none =>
        rw [show mergeRequired (.obj tf) m =
            .obj (if (lookupKV tf "required").isSome then tf
              else tf ++ [("required", Json.arr [])]) by
          simp only [mergeRequired, hsr, htr]]
        exact ⟨_, rfl, hinv1⟩
      | some u =>
        cases u with
        | arr tr =>
          rw [show mergeRequired (.obj tf) m =
              .obj (insertKeyFields
                (if (lookupKV tf "required").isSome then tf
                  else tf ++ [("required", Json.arr [])])
                "required" (.arr (pushNew tr srcReq))) by
            simp only [mergeRequired, hsr, htr]]
          refine ⟨_, rfl, ?_⟩
          intro k v hv
          rcases mem_insertKeyFields hv with ⟨rfl, rfl⟩ | ⟨h2, _⟩
          · exact Or.inr (Or.inl rfl)
          · exact hinv1 _ _ h2
        | null =>
          rw [show mergeRequired (.obj tf) m =
              .obj (if (lookupKV tf "required").isSome then tf
                else tf ++ [("required", Json.arr [])]) by
            simp only [mergeRequired, hsr, htr]]
          exact ⟨_, rfl, hinv1⟩
        | bool b =>
          rw [show mergeRequired (.obj tf) m =
              .obj (if (lookupKV tf "required").isSome then tf
                else tf ++ [("required", Json.arr [])]) by
            simp only [mergeRequired, hsr, htr]]
          exact ⟨_, rfl, hinv1⟩
        | num n =>
          rw [show mergeRequired (.obj tf) m =
              .obj (if (lookupKV tf "required").isSome then tf
                else tf ++ [("required", Json.arr [])]) by
            simp only [mergeRequired, hsr, htr]]
          exact ⟨_, rfl, hinv1⟩
        | str t =>
          rw [show mergeRequired (.obj tf) m =
              .obj (if (lookupKV tf "required").isSome then tf
                else tf ++ [("required", Json.arr [])]) by
            simp only [mergeRequired, hsr, htr]]
          exact ⟨_, rfl, hinv1⟩
        | obj gs =>
          rw [show mergeRequired (.obj tf) m =
              .obj (if (lookupKV tf "required").isSome then tf
                else tf ++ [("required", Json.arr [])]) by
            simp only [mergeRequired, hsr, htr]]
          exact ⟨_, rfl, hinv1⟩
    | null =>
      rw [show mergeRequired (.obj tf) m = .obj tf by simp only [mergeRequired, hsr]]
      exact ⟨tf, rfl, hinv⟩
    | bool b =>
      rw [show mergeRequired (.obj tf) m = .obj tf by simp only [mergeRequired, hsr]]
      exact ⟨tf, rfl, hinv⟩
    | num n =>
      rw [show mergeRequired (.obj tf) m = .obj tf by simp only [mergeRequired, hsr]]
      exact ⟨tf, rfl, hinv⟩
    | str t =>
      rw [show mergeRequired (.obj tf) m = .obj tf by simp only [mergeRequired, hsr]]
      exact ⟨tf, rfl, hinv⟩
    | obj gs =>
      rw [show mergeRequired (.obj tf) m = .obj tf by simp only [mergeRequired, hsr]]
      exact ⟨tf, rfl, hinv⟩

theorem mem_mergeOther_foldl {sf : List (String × Json)} :
    ∀ {tf : List (String × Json)} {k : String} {v : Json},
      (k, v) ∈ sf.foldl
        (fun acc p =>
          if p.1 = "properties" ∨ p.1 = "required" ∨ (lookupKV acc p.1).isSome
          then acc else acc ++ [(p.1, p.2)]) tf →
      (k, v) ∈ tf ∨ ((k, v) ∈ sf ∧ k ≠ "properties" ∧ k ≠ "required") := by
  induction sf with
  | nil => intro tf k v h; exact Or.inl h
  | cons p sf' ih =>
    intro tf k v h
    rw [List.foldl_cons] at h
    rcases ih h with h1 | h1
    · split at h1
      · exact Or.inl h1
      · rename_i hcond
        rcases List.mem_append.mp h1 with h2 | h2
        · exact Or.inl h2
        · simp only [List.mem_singleton, Prod.mk.injEq] at h2
          obtain ⟨rfl, rfl⟩ := h2
          push_neg at hcond
          right
          exact ⟨List.mem_cons_self _ _, hcond.1, hcond.2.1⟩
    · right
      exact ⟨List.mem_cons_of_mem _ h1.1, h1.2⟩

theorem AccInv_mergeOther {L : List Json} {acc m : Json} (hmem : m ∈ L)
    (h : AccInv L acc) : AccInv L (mergeOther acc m) := by
  obtain ⟨tf, rfl, hinv⟩ := h
  cases m with
  | obj sf =>
    rw [show mergeOther (.obj tf) (.obj sf) =
        .obj (sf.foldl
          (fun acc p =>
            if p.1 = "properties" ∨ p.1 = "required" ∨ (lookupKV acc p.1).isSome
            then acc else acc ++ [(p.1, p.2)]) tf) by
      simp only [mergeOther]]
    refine ⟨_, rfl, ?_⟩
    intro k v hv
    rcases mem_mergeOther_foldl hv with h1 | ⟨h1, hp, hr⟩
    · exact hinv _ _ h1
    · exact Or.inr (Or.inr (Or.inr ⟨hp, hr, _, hmem,
        SubV.objMem h1 (SubV.refl _)⟩))
  | null => exact ⟨tf, rfl, hinv⟩
  | bool b => exact ⟨tf, rfl, hinv⟩
  | num n => exact ⟨tf, rfl, hinv⟩
  | str t => exact ⟨tf, rfl, hinv⟩
  | arr xs => exact ⟨tf, rfl, hinv⟩

theorem AccInv_mergeInto {L : List Json} {acc m : Json} (hmem : m ∈ L)
    (h : AccInv L acc) : AccInv L (mergeInto acc m) := by
  unfold mergeInto
  split
  · exact h
  · exact AccInv_mergeOther hmem (AccInv_mergeRequired (AccInv_mergeProps hmem h))

theorem AccInv_foldl {L : List Json} :
    ∀ (L' : List Json) (acc : Json), (∀ m ∈ L', m ∈ L) → AccInv L acc →
      AccInv L (L'.foldl mergeInto acc) := by
  intro L'
  induction L' with
  | nil => intro acc _ h; exact h
  | cons m L'' ih =>
    intro acc hsub h
    rw [List.foldl_cons]
    exact ih _ (fun x hx => hsub x (List.mem_cons_of_mem _ hx))
      (AccInv_mergeInto (hsub m (List.mem_cons_self _ _)) h)

theorem AccInv_mergeAll (L : List Json) : AccInv L (mergeAll L) :=
  AccInv_foldl L initAcc (fun _ hx => hx) (AccInv_init L)

theorem mergeAll_getKey_other {L : List Json} {k : String} {v : Json}
    (h1 : k ≠ "type") (h2 : k ≠ "required") (h3 : k ≠ "properties")
    (h : getKey (mergeAll L) k = some v) : MemSub v L := by
  obtain ⟨fs, heq, hinv⟩ := AccInv_mergeAll L
  rw [heq, getKey_obj] at h
  rcases hinv _ _ (lookupKV_mem h) with h4 | h4 | ⟨h4, _⟩ | ⟨_, _, h4⟩
  · exact absurd h4 h1
  · exact absurd h4 h2
  · exact absurd h4 h3
  · exact h4

theorem mergeAll_props_vals {L : List Json} {ps : List (String × Json)}
    (h : getKey (mergeAll L) "properties" = some (.obj ps)) :
    ∀ k' v', (k', v') ∈ ps → MemSub v' L := by
  obtain ⟨fs, heq, hinv⟩ := AccInv_mergeAll L
  rw [heq, getKey_obj] at h
  rcases hinv _ _ (lookupKV_mem h) with h4 | h4 | ⟨_, qs, hqs, h4⟩ | ⟨h4, _, _⟩
  · exact absurd h4 (by decide)
  · exact absurd h4 (by decide)
  · obtain rfl : qs = ps := by simpa [Json.obj.injEq] using hqs.symm
    exact h4
  · exact absurd rfl h4

theorem allOfFallback_cases (L : List Json) :
    allOfFallback L ∈ L ∨ allOfFallback L = cObj := by
  unfold allOfFallback
  cases hf : L.find? (fun m => !(hasKey m "$ref")) with
  | none => right; rfl
  | some m =>
    left
    simpa using List.mem_of_find?_eq_some hf

/-! ## Termination of the simplifier -/

/-- `simplify_schema` terminates on `v`: some fuel suffices. -/
def Term (v : Json) : Prop := ∃ n r, simplifyF n v = some r

theorem getKey_nonobj {v : Json} (h : isObj v = false) (k : String) :
    getKey v k = none := by
  cases v <;> first | rfl | simp [isObj] at h

theorem term_nonobj {v : Json} (h : isObj v = false) : Term v := by
  refine ⟨1, v, ?_⟩
  have he : enumFix v = v := enumFix_nonobj h
  rw [simplifyF_succ,
    simplifyGo_structural _ v (by simp [he, getKey_nonobj h])
      (by simp [he, getKey_nonobj h]) (by simp [he, getKey_nonobj h]), he]
  exact structuralStep_nonobj _ h

theorem term_cObj : Term cObj := ⟨1, cObj, by rfl⟩

theorem exists_uniform_fuel {ps : List (String × Json)} (h : ∀ p ∈ ps, Term p.2) :
    ∃ N, ∀ p ∈ ps, ∃ w, simplifyF N p.2 = some w := by
  induction ps with
  | nil => exact ⟨0, by simp⟩
  | cons q rest ih =>
    obtain ⟨N', hN'⟩ := ih (fun p hp => h p (List.mem_cons_of_mem _ hp))
    obtain ⟨n1, w1, hw1⟩ := h q (List.mem_cons_self _ _)
    refine ⟨max n1 N', ?_⟩
    intro p hp
    rcases List.mem_cons.mp hp with rfl | hp'
    · exact ⟨w1, simplifyF_mono n1 _ _ _ (Nat.le_max_left _ _) hw1⟩
    · obtain ⟨w, hw⟩ := hN' p hp'
      exact ⟨w, simplifyF_mono N' _ _ _ (Nat.le_max_right _ _) hw⟩

theorem term_structural (s : Json)
    (hp : ∀ fs ps k v, s = .obj fs → lookupKV fs "properties" = some (.obj ps) →
      (k, v) ∈ ps → Term v)
    (hi : ∀ fs it, s = .obj fs → lookupKV fs "items" = some it → Term it)
    (ha : ∀ fs ap, s = .obj fs → lookupKV fs "additionalProperties" = some ap →
      isObj ap = true → Term ap) :
    ∃ n r, structuralStep (simplifyF n) s = some r := by
  cases s with
  | obj fs =>
    -- properties step
    have step1 : ∃ n1 gs1, stepProps (simplifyF n1) (.obj fs) = some (.obj gs1) ∧
        lookupKV gs1 "items" = lookupKV fs "items" ∧
        lookupKV gs1 "additionalProperties" = lookupKV fs "additionalProperties" := by
      cases hps : lookupKV fs "properties" with
      | some w =>
        cases w with
        | obj ps =>
          obtain ⟨N, hN⟩ := exists_uniform_fuel
            (fun p hpmem => hp fs ps p.1 p.2 rfl hps hpmem)
          obtain ⟨ps', hps'⟩ := mapValsM_exists_of_all hN
          refine ⟨N, insertKeyFields fs "properties" (.obj ps'), ?_, ?_, ?_⟩
          · rw [stepProps_eval_obj _ fs ps hps, hps']
            rfl
          · exact lookupKV_insert_ne fs _ _ _ (by decide)
          · exact lookupKV_insert_ne fs _ _ _ (by decide)
        | null => exact ⟨0, fs, stepProps_eval_skip _ fs (by simp [hps]), rfl, rfl⟩
        | bool b => exact ⟨0, fs, stepProps_eval_skip _ fs (by simp [hps]), rfl, rfl⟩
        | num n => exact ⟨0, fs, stepProps_eval_skip _ fs (by simp [hps]), rfl, rfl⟩
        | str t => exact ⟨0, fs, stepProps_eval_skip _ fs (by simp [hps]), rfl, rfl⟩
        | arr xs => exact ⟨0, fs, stepProps_eval_skip _ fs (by simp [hps]), rfl, rfl⟩
      | none => exact ⟨0, fs, stepProps_eval_skip _ fs (by simp [hps]), rfl, rfl⟩
    obtain ⟨n1, gs1, h1, hit1, hap1⟩ := step1
    -- items step
    have step2 : ∃ n2 gs2, stepItems (simplifyF n2) (.obj gs1) = some (.obj gs2) ∧
        lookupKV gs2 "additionalProperties" = lookupKV fs "additionalProperties" := by
      cases hit : lookupKV fs "items" with
      | some it =>
        obtain ⟨n2, it', hit'⟩ := hi fs it rfl hit
        refine ⟨n2, insertKeyFields gs1 "items" it', ?_, ?_⟩
        · rw [stepItems_eval_obj _ gs1 it (hit1.trans hit), hit']
          rfl
        · rw [lookupKV_insert_ne gs1 _ _ _ (by decide)]
          exact hap1
      | none => exact ⟨0, gs1, stepItems_eval_skip _ gs1 (hit1.trans hit), hap1⟩
    obtain ⟨n2, gs2, h2, hap2⟩ := step2
    -- additionalProperties step
    have step3 : ∃ n3 r, stepAddl (simplifyF n3) (.obj gs2) = some r := by
      cases hap : lookupKV fs "additionalProperties" with
      | some ap =>
        cases hobj : isObj ap with
        | true =>
          obtain ⟨n3, ap', hap'⟩ := ha fs ap rfl hap hobj
          refine ⟨n3, .obj (insertKeyFields gs2 "additionalProperties" ap'), ?_⟩
          rw [stepAddl_eval_obj _ gs2 ap (hap2.trans hap) hobj, hap']
          rfl
        | false => exact ⟨0, _, stepAddl_eval_skip_nonobj _ gs2 ap (hap2.trans hap) hobj⟩
      | none => exact ⟨0, _, stepAddl_eval_skip_none _ gs2 (hap2.trans hap)⟩
    obtain ⟨n3, r, h3⟩ := step3
    -- combine with a common fuel
    refine ⟨max n1 (max n2 n3), r, ?_⟩
    have m1 : OLE (simplifyF n1) (simplifyF (max n1 (max n2 n3))) :=
      fun v w hv => simplifyF_mono n1 _ v w (Nat.le_max_left _ _) hv
    have m2 : OLE (simplifyF n2) (simplifyF (max n1 (max n2 n3))) :=
      fun v w hv => simplifyF_mono n2 _ v w
        (le_trans (Nat.le_max_left _ _) (Nat.le_max_right _ _)) hv
    have m3 : OLE (simplifyF n3) (simplifyF (max n1 (max n2 n3))) :=
      fun v w hv => simplifyF_mono n3 _ v w
        (le_trans (Nat.le_max_right _ _) (Nat.le_max_right _ _)) hv
    exact structuralStep_eval (stepProps_mono m1 h1) (stepItems_mono m2 h2)
      (stepAddl_mono m3 h3)
  | null => exact ⟨0, _, structuralStep_nonobj _ rfl⟩
  | bool b => exact ⟨0, _, structuralStep_nonobj _ rfl⟩
  | num n => exact ⟨0, _, structuralStep_nonobj _ rfl⟩
  | str t => exact ⟨0, _, structuralStep_nonobj _ rfl⟩
  | arr xs => exact ⟨0, _, structuralStep_nonobj _ rfl⟩

theorem sizeOf_list_pos (L : List Json) : 0 < sizeOf L := by
  cases L <;> simp

/-- Termination of the re-simplification of a merged accumulator: the
`allOf` chain strictly descends into subterms of the member list. -/
theorem term_mergeAll : ∀ N L, sizeOf L ≤ N → (∀ t, MemSub t L → Term t) →
    Term (mergeAll L) := by
  intro N
  induction N with
  | zero =>
    intro L hL _
    exact absurd hL (by have := sizeOf_list_pos L; omega)
  | succ N ih =>
    intro L hL hmem
    have hpres : ∀ k, k ≠ "maxLength" → k ≠ "minLength" → k ≠ "pattern" →
        k ≠ "format" → k ≠ "type" →
        getKey (enumFix (mergeAll L)) k = getKey (mergeAll L) k :=
      fun k a b c d e => getKey_enumFix (mergeAll L) k a b c d e
    rcases simplifyBranch (mergeAll L) with ⟨L', hL'⟩ | ⟨hA, x, xs, hx⟩ |
      ⟨hA, hO, x, xs, hx⟩ | ⟨hA, hO, hY⟩
    · -- the merged node again declares an allOf list: strict descent
      have hML' : getKey (mergeAll L) "allOf" = some (.arr L') := by
        rw [← hpres "allOf" (by decide) (by decide) (by decide) (by decide) (by decide)]
        exact hL'
      have hsub : MemSub (.arr L') L :=
        mergeAll_getKey_other (by decide) (by decide) (by decide) hML'
      have hsubAll : ∀ t, MemSub t L' → MemSub t L := by
        intro t ⟨m', hm', hs⟩
        obtain ⟨m, hm, hs2⟩ := hsub
        exact ⟨m, hm, SubV.trans (SubV.trans hs (SubV.arrMem hm' (SubV.refl _))) hs2⟩
      have hsize : sizeOf L' ≤ N := by
        have := hsub.sizeOf_lt
        simp at this
        omega
      have hterm_next : Term (if hasProperties (mergeAll L') then mergeAll L'
          else allOfFallback L') := by
        split
        · exact ih L' hsize (fun t ht => hmem t (hsubAll t ht))
        · rcases allOfFallback_cases L' with hfb | hfb
          · exact hmem _ (hsubAll _ ⟨_, hfb, SubV.refl _⟩)
          · rw [hfb]
            exact term_cObj
      obtain ⟨n, r, hr⟩ := hterm_next
      exact ⟨n + 1, r, by rw [simplifyF_succ, simplifyGo_allOf _ _ L' hL']; exact hr⟩
    · -- oneOf branch on the merged node
      have hMx : getKey (mergeAll L) "oneOf" = some (.arr (x :: xs)) := by
        rw [← hpres "oneOf" (by decide) (by decide) (by decide) (by decide) (by decide)]
        exact hx
      have hsub : MemSub (.arr (x :: xs)) L :=
        mergeAll_getKey_other (by decide) (by decide) (by decide) hMx
      have hsubx : MemSub x L := by
        obtain ⟨m, hm, hs⟩ := hsub
        exact ⟨m, hm, SubV.trans (SubV.arrMem (List.mem_cons_self _ _) (SubV.refl _)) hs⟩
      obtain ⟨n, r, hr⟩ := hmem x hsubx
      exact ⟨n + 1, r, by rw [simplifyF_succ, simplifyGo_oneOf _ _ x xs hA hx]; exact hr⟩
    · -- anyOf branch on the merged node
      have hMx : getKey (mergeAll L) "anyOf" = some (.arr (x :: xs)) := by
        rw [← hpres "anyOf" (by decide) (by decide) (by decide) (by decide) (by decide)]
        exact hx
      have hsub : MemSub (.arr (x :: xs)) L :=
        mergeAll_getKey_other (by decide) (by decide) (by decide) hMx
      have hsubx : MemSub x L := by
        obtain ⟨m, hm, hs⟩ := hsub
        exact ⟨m, hm, SubV.trans (SubV.arrMem (List.mem_cons_self _ _) (SubV.refl _)) hs⟩
      obtain ⟨n, r, hr⟩ := hmem x hsubx
      exact ⟨n + 1, r,
        by rw [simplifyF_succ, simplifyGo_anyOf _ _ x xs hA hO hx]; exact hr⟩
    · -- structural recursion on the merged node
      have hstruct : ∃ n r, structuralStep (simplifyF n) (enumFix (mergeAll L)) = some r := by
        apply term_structural
        · intro fs ps k v heq hlk hv
          have hgp : getKey (mergeAll L) "properties" = some (.obj ps) := by
            rw [← hpres "properties" (by decide) (by decide) (by decide) (by decide)
              (by decide), heq, getKey_obj]
            exact hlk
          exact hmem v (mergeAll_props_vals hgp _ _ hv)
        · intro fs it heq hlk
          have hgi : getKey (mergeAll L) "items" = some it := by
            rw [← hpres "items" (by decide) (by decide) (by decide) (by decide)
              (by decide), heq, getKey_obj]
            exact hlk
          exact hmem it (mergeAll_getKey_other (by decide) (by decide) (by decide) hgi)
        · intro fs ap heq hlk _
          have hga : getKey (mergeAll L) "additionalProperties" = some ap := by
            rw [← hpres "additionalProperties" (by decide) (by decide) (by decide)
              (by decide) (by decide), heq, getKey_obj]
            exact hlk
          exact hmem ap (mergeAll_getKey_other (by decide) (by decide) (by decide) hga)
      obtain ⟨n, r, hr⟩ := hstruct
      exact ⟨n + 1, r, by rw [simplifyF_succ, simplifyGo_structural _ _ hA hO hY]; exact hr⟩

/-- Every finite JSON value is simplified in finite fuel. -/
theorem term_all : ∀ N v, sizeOf v ≤ N → Term v := by
  intro N
  induction N with
  | zero =>
    intro v hv
    exact absurd hv (by have := sizeOf_pos v; omega)
  | succ N ih =>
    intro v hv
    have hpres : ∀ k, k ≠ "maxLength" → k ≠ "minLength" → k ≠ "pattern" →
        k ≠ "format" → k ≠ "type" → getKey (enumFix v) k = getKey v k :=
      fun k a b c d e => getKey_enumFix v k a b c d e
    rcases simplifyBranch v with ⟨L, hL⟩ | ⟨hA, x, xs, hx⟩ |
      ⟨hA, hO, x, xs, hx⟩ | ⟨hA, hO, hY⟩
    · -- allOf rule fires
      have hvL : getKey v "allOf" = some (.arr L) := by
        rw [← hpres "allOf" (by decide) (by decide) (by decide) (by decide) (by decide)]
        exact hL
      have hobj : ∃ vf, v = .obj vf ∧ ("allOf", Json.arr L) ∈ vf := by
        cases v with
        | obj vf => exact ⟨vf, rfl, lookupKV_mem hvL⟩
        | null => simp [getKey] at hvL
        | bool b => simp [getKey] at hvL
        | num n => simp [getKey] at hvL
        | str t => simp [getKey] at hvL
        | arr xs => simp [getKey] at hvL
      obtain ⟨vf, rfl, hmemL⟩ := hobj
      have harr_lt : sizeOf (Json.arr L) < sizeOf (Json.obj vf) := mem_val_sizeOf_lt hmemL
      have hmemTerm : ∀ t, MemSub t L → Term t := by
        intro t ht
        apply ih
        have h2 := ht.sizeOf_lt
        simp at harr_lt h2 hv ⊢
        omega
      have hLsize : sizeOf L ≤ N := by
        simp at harr_lt hv
        omega
      have hterm_next : Term (if hasProperties (mergeAll L) then mergeAll L
          else allOfFallback L) := by
        split
        · exact term_mergeAll N L hLsize hmemTerm
        · rcases allOfFallback_cases L with hfb | hfb
          · exact hmemTerm _ ⟨_, hfb, SubV.refl _⟩
          · rw [hfb]
            exact term_cObj
      obtain ⟨n, r, hr⟩ := hterm_next
      exact ⟨n + 1, r, by rw [simplifyF_succ, simplifyGo_allOf _ _ L hL]; exact hr⟩
    · -- oneOf rule fires
      have hvx : getKey v "oneOf" = some (.arr (x :: xs)) := by
        rw [← hpres "oneOf" (by decide) (by decide) (by decide) (by decide) (by decide)]
        exact hx
      have hobj : ∃ vf, v = .obj vf ∧ ("oneOf", Json.arr (x :: xs)) ∈ vf := by
        cases v with
        | obj vf => exact ⟨vf, rfl, lookupKV_mem hvx⟩
        | null => simp [getKey] at hvx
        | bool b => simp [getKey] at hvx
        | num n => simp [getKey] at hvx
        | str t => simp [getKey] at hvx
        | arr xs2 => simp [getKey] at hvx
      obtain ⟨vf, rfl, hmemx⟩ := hobj
      have h1 : sizeOf (Json.arr (x :: xs)) < sizeOf (Json.obj vf) := mem_val_sizeOf_lt hmemx
      have hx_term : Term x := by
        apply ih
        simp at h1 hv ⊢
        omega
      obtain ⟨n, r, hr⟩ := hx_term
      exact ⟨n + 1, r, by rw [simplifyF_succ, simplifyGo_oneOf _ _ x xs hA hx]; exact hr⟩
    · -- anyOf rule fires
      have hvx : getKey v "anyOf" = some (.arr (x :: xs)) := by
        rw [← hpres "anyOf" (by decide) (by decide) (by decide) (by decide) (by decide)]
        exact hx
      have hobj : ∃ vf, v = .obj vf ∧ ("anyOf", Json.arr (x :: xs)) ∈ vf := by
        cases v with
        | obj vf => exact ⟨vf, rfl, lookupKV_mem hvx⟩
        | null => simp [getKey] at hvx
        | bool b => simp [getKey] at hvx
        | num n => simp [getKey] at hvx
        | str t => simp [getKey] at hvx
        | arr xs2 => simp [getKey] at hvx
      obtain ⟨vf, rfl, hmemx⟩ := hobj
      have h1 : sizeOf (Json.arr (x :: xs)) < sizeOf (Json.obj vf) := mem_val_sizeOf_lt hmemx
      have hx_term : Term x := by
        apply ih
        simp at h1 hv ⊢
        omega
      obtain ⟨n, r, hr⟩ := hx_term
      exact ⟨n + 1, r, by rw [simplifyF_succ, simplifyGo_anyOf _ _ x xs hA hO hx]; exact hr⟩
    · -- structural recursion
      have hstruct : ∃ n r, structuralStep (simplifyF n) (enumFix v) = some r := by
        apply term_structural
        · intro fs ps k w heq hlk hw
          have hgp : getKey v "properties" = some (.obj ps) := by
            rw [← hpres "properties" (by decide) (by decide) (by decide) (by decide)
              (by decide), heq, getKey_obj]
            exact hlk
          have hobj : ∃ vf, v = .obj vf ∧ ("properties", Json.obj ps) ∈ vf := by
            cases v with
            | obj vf => exact ⟨vf, rfl, lookupKV_mem hgp⟩
            | null => simp [getKey] at hgp
            | bool b => simp [getKey] at hgp
            | num n => simp [getKey] at hgp
            | str t => simp [getKey] at hgp
            | arr xs2 => simp [getKey] at hgp
          obtain ⟨vf, rfl, hmemp⟩ := hobj
          have h1 : sizeOf (Json.obj ps) < sizeOf (Json.obj vf) := mem_val_sizeOf_lt hmemp
          have h2 : sizeOf w < sizeOf (Json.obj ps) := mem_val_sizeOf_lt hw
          apply ih
          simp at h1 h2 hv ⊢
          omega
        · intro fs it heq hlk
          have hgi : getKey v "items" = some it := by
            rw [← hpres "items" (by decide) (by decide) (by decide) (by decide)
              (by decide), heq, getKey_obj]
            exact hlk
          have hobj : ∃ vf, v = .obj vf ∧ ("items", it) ∈ vf := by
            cases v with
            | obj vf => exact ⟨vf, rfl, lookupKV_mem hgi⟩
            | null => simp [getKey] at hgi
            | bool b => simp [getKey] at hgi
            | num n => simp [getKey] at hgi
            | str t => simp [getKey] at hgi
            | arr xs2 => simp [getKey] at hgi
          obtain ⟨vf, rfl, hmemi⟩ := hobj
          have h1 : sizeOf it < sizeOf (Json.obj vf) := mem_val_sizeOf_lt hmemi
          apply ih
          simp at h1 hv ⊢
          omega
        · intro fs ap heq hlk _
          have hga : getKey v "additionalProperties" = some ap := by
            rw [← hpres "additionalProperties" (by decide) (by decide) (by decide)
              (by decide) (by decide), heq, getKey_obj]
            exact hlk
          have hobj : ∃ vf, v = .obj vf ∧ ("additionalProperties", ap) ∈ vf := by
            cases v with
            | obj vf => exact ⟨vf, rfl, lookupKV_mem hga⟩
            | null => simp [getKey] at hga
            | bool b => simp [getKey] at hga
            | num n => simp [getKey] at hga
            | str t => simp [getKey] at hga
            | arr xs2 => simp [getKey] at hga
          obtain ⟨vf, rfl, hmema⟩ := hobj
          have h1 : sizeOf ap < sizeOf (Json.obj vf) := mem_val_sizeOf_lt hmema
          apply ih
          simp at h1 hv ⊢
          omega
      obtain ⟨n, r, hr⟩ := hstruct
      exact ⟨n + 1, r, by rw [simplifyF_succ, simplifyGo_structural _ _ hA hO hY]; exact hr⟩

theorem simplifyF_terminates (v : Json) : ∃ n r, simplifyF n v = some r :=
  term_all (sizeOf v) v (le_refl _)

/-! ## The output invariant: no composition keys, clean enums -/

/-- Reachability through the data model's schema-child positions:
property values, the items schema, the additionalProperties schema, and
members of composition-keyword lists. -/
inductive Reach : Json → Json → Prop
  | refl (j : Json) : Reach j j
  | prop {s t v : Json} {ps : List (String × Json)} {k : String} :
      getKey s "properties" = some (.obj ps) → (k, v) ∈ ps → Reach v t → Reach s t
  | items {s t v : Json} : getKey s "items" = some v → Reach v t → Reach s t
  | addl {s t v : Json} : getKey s "additionalProperties" = some v → Reach v t → Reach s t
  | allOfMem {s t v : Json} {xs : List Json} :
      getKey s "allOf" = some (.arr xs) → v ∈ xs → Reach v t → Reach s t
  | oneOfMem {s t v : Json} {xs : List Json} :
      getKey s "oneOf" = some (.arr xs) → v ∈ xs → Reach v t → Reach s t
  | anyOfMem {s t v : Json} {xs : List Json} :
      getKey s "anyOf" = some (.arr xs) → v ∈ xs → Reach v t → Reach s t

/-- No surviving composition rule can fire at this node: no array-valued
`allOf`, no nonempty-array `oneOf` or `anyOf`. -/
def CompositionFree (t : Json) : Prop :=
  (∀ L, getKey t "allOf" ≠ some (.arr L)) ∧
  (∀ x xs, getKey t "oneOf" ≠ some (.arr (x :: xs))) ∧
  (∀ x xs, getKey t "anyOf" ≠ some (.arr (x :: xs)))

/-- An enum-bearing node has no string constraints and carries a type. -/
def EnumOk (t : Json) : Prop :=
  (getKey t "enum").isSome →
    getKey t "maxLength" = none ∧ getKey t "minLength" = none ∧
    getKey t "pattern" = none ∧ getKey t "format" = none ∧ (getKey t "type").isSome

theorem Reach_nonobj {c t : Json} (h : Reach c t) (hno : isObj c = false) : t = c := by
  cases h with
  | refl => rfl
  | prop hg _ _ => rw [getKey_nonobj hno] at hg; exact Option.noConfusion hg
  | items hg _ => rw [getKey_nonobj hno] at hg; exact Option.noConfusion hg
  | addl hg _ => rw [getKey_nonobj hno] at hg; exact Option.noConfusion hg
  | allOfMem hg _ _ => rw [getKey_nonobj hno] at hg; exact Option.noConfusion hg
  | oneOfMem hg _ _ => rw [getKey_nonobj hno] at hg; exact Option.noConfusion hg
  | anyOfMem hg _ _ => rw [getKey_nonobj hno] at hg; exact Option.noConfusion hg

theorem NodeOk_nonobj {c : Json} (hno : isObj c = false) :
    CompositionFree c ∧ EnumOk c := by
  refine ⟨⟨?_, ?_, ?_⟩, ?_⟩
  · intro L h; rw [getKey_nonobj hno] at h; exact Option.noConfusion h
  · intro x xs h; rw [getKey_nonobj hno] at h; exact Option.noConfusion h
  · intro x xs h; rw [getKey_nonobj hno] at h; exact Option.noConfusion h
  · intro h; rw [getKey_nonobj hno] at h; simp at h

theorem stepProps_getKey {f : Json → Option Json} {s r : Json}
    (h : stepProps f s = some r) (k : String) (hk : k ≠ "properties") :
    getKey r k = getKey s k := by
  rcases stepProps_spec h with ⟨fs, ps, ps', rfl, _, _, rfl⟩ | ⟨rfl, _⟩
  · rw [getKey_obj, getKey_obj]
    exact lookupKV_insert_ne fs _ _ _ hk
  · rfl

theorem stepItems_getKey {f : Json → Option Json} {s r : Json}
    (h : stepItems f s = some r) (k : String) (hk : k ≠ "items") :
    getKey r k = getKey s k := by
  rcases stepItems_spec h with ⟨fs, it, it', rfl, _, _, rfl⟩ | ⟨rfl, _⟩
  · rw [getKey_obj, getKey_obj]
    exact lookupKV_insert_ne fs _ _ _ hk
  · rfl

theorem stepAddl_getKey {f : Json → Option Json} {s r : Json}
    (h : stepAddl f s = some r) (k : String) (hk : k ≠ "additionalProperties") :
    getKey r k = getKey s k := by
  rcases stepAddl_spec h with ⟨fs, ap, ap', rfl, _, _, _, rfl⟩ | ⟨rfl, _⟩
  · rw [getKey_obj, getKey_obj]
    exact lookupKV_insert_ne fs _ _ _ hk
  · rfl

theorem structuralStep_getKey {f : Json → Option Json} {s r : Json}
    (h : structuralStep f s = some r) (k : String) (h1 : k ≠ "properties")
    (h2 : k ≠ "items") (h3 : k ≠ "additionalProperties") :
    getKey r k = getKey s k := by
  obtain ⟨s1, s2, ha, hb, hc⟩ := structuralStep_decomp h
  rw [stepAddl_getKey hc k h3, stepItems_getKey hb k h2, stepProps_getKey ha k h1]

theorem structuralStep_props_out {f : Json → Option Json} {s r : Json}
    {ps' : List (String × Json)} (h : structuralStep f s = some r)
    (hr : getKey r "properties" = some (.obj ps')) :
    ∃ ps, getKey s "properties" = some (.obj ps) ∧ mapValsM f ps = some ps' := by
  obtain ⟨s1, s2, ha, hb, hc⟩ := structuralStep_decomp h
  rw [stepAddl_getKey hc _ (by decide), stepItems_getKey hb _ (by decide)] at hr
  rcases stepProps_spec ha with ⟨fs, ps, qs', rfl, hps, hm, rfl⟩ | ⟨rfl, hskip⟩
  · rw [getKey_obj, lookupKV_insert_self] at hr
    obtain rfl : qs' = ps' := by simpa [Json.obj.injEq] using hr
    exact ⟨ps, by rw [getKey_obj]; exact hps, hm⟩
  · cases s1 with
    | obj fs =>
      rw [getKey_obj] at hr
      exact absurd hr (hskip fs ps' rfl)
    | null => exact Option.noConfusion hr
    | bool b => exact Option.noConfusion hr
    | num n => exact Option.noConfusion hr
    | str t => exact Option.noConfusion hr
    | arr xs => exact Option.noConfusion hr

theorem structuralStep_items_out {f : Json → Option Json} {s r v : Json}
    (h : structuralStep f s = some r) (hr : getKey r "items" = some v) :
    ∃ it, getKey s "items" = some it ∧ f it = some v := by
  obtain ⟨s1, s2, ha, hb, hc⟩ := structuralStep_decomp h
  rw [stepAddl_getKey hc _ (by decide)] at hr
  rcases stepItems_spec hb with ⟨fs, it, it', heq, hit, hf, rfl⟩ | ⟨rfl, hskip⟩
  · rw [getKey_obj, lookupKV_insert_self] at hr
    obtain rfl : it' = v := by simpa using hr
    refine ⟨it, ?_, hf⟩
    rw [← stepProps_getKey ha _ (by decide), heq, getKey_obj]
    exact hit
  · cases s2 with
    | obj fs =>
      rw [getKey_obj, hskip fs rfl] at hr
      exact Option.noConfusion hr
    | null => exact Option.noConfusion hr
    | bool b => exact Option.noConfusion hr
    | num n => exact Option.noConfusion hr
    | str t => exact Option.noConfusion hr
    | arr xs => exact Option.noConfusion hr

theorem structuralStep_addl_out {f : Json → Option Json} {s r c : Json}
    (h : structuralStep f s = some r)
    (hr : getKey r "additionalProperties" = some c) :
    isObj c = false ∨
    ∃ ap, getKey s "additionalProperties" = some ap ∧ isObj ap = true ∧ f ap = some c := by
  obtain ⟨s1, s2, ha, hb, hc⟩ := structuralStep_decomp h
  rcases stepAddl_spec hc with ⟨fs, ap, ap', heq, hap, hobj, hf, rfl⟩ | ⟨rfl, hskip⟩
  · rw [getKey_obj, lookupKV_insert_self] at hr
    obtain rfl : ap' = c := by simpa using hr
    right
    refine ⟨ap, ?_, hobj, hf⟩
    rw [← stepProps_getKey ha _ (by decide), ← stepItems_getKey hb _ (by decide), heq,
      getKey_obj]
    exact hap
  · cases r with
    | obj fs =>
      rw [getKey_obj] at hr
      exact Or.inl (hskip fs c rfl hr)
    | null => exact Option.noConfusion hr
    | bool b => exact Option.noConfusion hr
    | num n => exact Option.noConfusion hr
    | str t => exact Option.noConfusion hr
    | arr xs => exact Option.noConfusion hr

/-- Main invariant: every node reachable in a simplifier output is
composition-free and enum-clean. -/
theorem simplify_inv : ∀ n s r, simplifyF n s = some r →
    ∀ t, Reach r t → CompositionFree t ∧ EnumOk t := by
  intro n
  induction n with
  | zero =>
    intro s r h
    rw [simplifyF_zero] at h
    exact absurd h (by simp)
  | succ n ih =>
    intro s r h t hreach
    rw [simplifyF_succ] at h
    rcases simplifyBranch s with ⟨L, hL⟩ | ⟨hA, x, xs, hx⟩ |
      ⟨hA, hO, x, xs, hx⟩ | ⟨hA, hO, hY⟩
    · rw [simplifyGo_allOf _ s L hL] at h
      exact ih _ r h t hreach
    · rw [simplifyGo_oneOf _ s x xs hA hx] at h
      exact ih _ r h t hreach
    · rw [simplifyGo_anyOf _ s x xs hA hO hx] at h
      exact ih _ r h t hreach
    · rw [simplifyGo_structural _ s hA hO hY] at h
      -- the node itself satisfies the invariant
      have hrA : ∀ L, getKey r "allOf" ≠ some (.arr L) := by
        intro L hc
        rw [structuralStep_getKey h _ (by decide) (by decide) (by decide)] at hc
        exact hA L hc
      have hrO : ∀ x xs, getKey r "oneOf" ≠ some (.arr (x :: xs)) := by
        intro x xs hc
        rw [structuralStep_getKey h _ (by decide) (by decide) (by decide)] at hc
        exact hO x xs hc
      have hrY : ∀ x xs, getKey r "anyOf" ≠ some (.arr (x :: xs)) := by
        intro x xs hc
        rw [structuralStep_getKey h _ (by decide) (by decide) (by decide)] at hc
        exact hY x xs hc
      have hrE : EnumOk r := by
        intro he
        rw [structuralStep_getKey h _ (by decide) (by decide) (by decide)] at he
        obtain ⟨e1, e2, e3, e4, e5⟩ := enumFix_enum_invariant s he
        refine ⟨?_, ?_, ?_, ?_, ?_⟩
        · rw [structuralStep_getKey h _ (by decide) (by decide) (by decide)]; exact e1
        · rw [structuralStep_getKey h _ (by decide) (by decide) (by decide)]; exact e2
        · rw [structuralStep_getKey h _ (by decide) (by decide) (by decide)]; exact e3
        · rw [structuralStep_getKey h _ (by decide) (by decide) (by decide)]; exact e4
        · rw [structuralStep_getKey h _ (by decide) (by decide) (by decide)]; exact e5
      cases hreach with
      | refl => exact ⟨⟨hrA, hrO, hrY⟩, hrE⟩
      | prop hg hmem hre =>
        obtain ⟨ps, _, hm⟩ := structuralStep_props_out h hg
        obtain ⟨v0, _, hv0⟩ := mapValsM_mem hm hmem
        exact ih _ _ hv0 t hre
      | items hg hre =>
        obtain ⟨it, _, hf⟩ := structuralStep_items_out h hg
        exact ih _ _ hf t hre
      | addl hg hre =>
        rcases structuralStep_addl_out h hg with hno | ⟨ap, _, _, hf⟩
        · obtain rfl := Reach_nonobj hre hno
          exact NodeOk_nonobj hno
        · exact ih _ _ hf t hre
      | allOfMem hg hmem hre => exact absurd hg (hrA _)
      | oneOfMem hg hmem hre =>
        rename_i xs2
        cases xs2 with
        | nil => simp at hmem
        | cons y ys => exact absurd hg (hrO y ys)
      | anyOfMem hg hmem hre =>
        rename_i xs2
        cases xs2 with
        | nil => simp at hmem
        | cons y ys => exact absurd hg (hrY y ys)

/-! ## Merge precedence (properties / required / other keys) -/

theorem lookupKV_none_iff (fs : List (String × Json)) (k : String) :
    lookupKV fs k = none ↔ ∀ p ∈ fs, p.1 ≠ k := by
  induction fs with
  | nil => simp [lookupKV]
  | cons p rest ih =>
    obtain ⟨a, b⟩ := p
    by_cases hk : a = k
    · subst hk
      simp [lookupKV]
    · simp [lookupKV, hk, ih]

theorem lookupKV_foldl_insert_none {sp : List (String × Json)} {k : String} :
    ∀ {tp : List (String × Json)}, lookupKV sp k = none →
      lookupKV (sp.foldl (fun acc p => insertKeyFields acc p.1 p.2) tp) k =
        lookupKV tp k := by
  induction sp with
  | nil => intro tp _; rfl
  | cons p rest ih =>
    intro tp hnone
    obtain ⟨a, b⟩ := p
    by_cases hk : a = k
    · subst hk
      simp [lookupKV] at hnone
    · simp only [lookupKV, if_neg hk] at hnone
      rw [List.foldl_cons, ih hnone, lookupKV_insert_ne _ _ _ _ (Ne.symm hk)]

theorem lookupKV_foldl_insert_some {sp : List (String × Json)} {k : String} {v : Json} :
    ∀ {tp : List (String × Json)}, (sp.map Prod.fst).Nodup →
      lookupKV sp k = some v →
      lookupKV (sp.foldl (fun acc p => insertKeyFields acc p.1 p.2) tp) k = some v := by
  induction sp with
  | nil => intro tp _ h; simp [lookupKV] at h
  | cons p rest ih =>
    intro tp hnd hsome
    obtain ⟨a, b⟩ := p
    simp only [List.map_cons, List.nodup_cons] at hnd
    by_cases hk : a = k
    · subst hk
      simp [lookupKV] at hsome
      subst hsome
      rw [List.foldl_cons]
      have hrest : lookupKV rest a = none := by
        rw [lookupKV_none_iff]
        intro q hq hq1
        exact hnd.1 (hq1 ▸ List.mem_map_of_mem Prod.fst hq)
      rw [lookupKV_foldl_insert_none hrest, lookupKV_insert_self]
    · simp only [lookupKV, if_neg hk] at hsome
      rw [List.foldl_cons]
      exact ih hnd.2 hsome

theorem mergeProps_shape (tf : List (String × Json)) (source : Json) :
    ∃ tf', mergeProps (.obj tf) source = .obj tf' ∧
      ∀ k, k ≠ "properties" → lookupKV tf' k = lookupKV tf k := by
  cases hsp : getKey source "properties" with
  | none =>
    exact ⟨tf, by simp only [mergeProps, hsp], fun _ _ => rfl⟩
  | some w =>
    cases w with
    | obj sp =>
      cases htp : lookupKV tf "properties" with
      | none => exact ⟨tf, by simp only [mergeProps, hsp, htp], fun _ _ => rfl⟩
      | some u =>
        cases u with
        | obj tp =>
          refine ⟨insertKeyFields tf "properties"
            (.obj (sp.foldl (fun acc p => insertKeyFields acc p.1 p.2) tp)),
            by simp only [mergeProps, hsp, htp], ?_⟩
          intro k hk
          exact lookupKV_insert_ne tf _ _ _ hk
        | null => exact ⟨tf, by simp only [mergeProps, hsp, htp], fun _ _ => rfl⟩
        | bool b => exact ⟨tf, by simp only [mergeProps, hsp, htp], fun _ _ => rfl⟩
        | num n => exact ⟨tf, by simp only [mergeProps, hsp, htp], fun _ _ => rfl⟩
        | str t => exact ⟨tf, by simp only [mergeProps, hsp, htp], fun _ _ => rfl⟩
        | arr xs => exact ⟨tf, by simp only [mergeProps, hsp, htp], fun _ _ => rfl⟩
    | null => exact ⟨tf, by simp only [mergeProps, hsp], fun _ _ => rfl⟩
    | bool b => exact ⟨tf, by simp only [mergeProps, hsp], fun _ _ => rfl⟩
    | num n => exact ⟨tf, by simp only [mergeProps, hsp], fun _ _ => rfl⟩
    | str t => exact ⟨tf, by simp only [mergeProps, hsp], fun _ _ => rfl⟩
    | arr xs => exact ⟨tf, by simp only [mergeProps, hsp], fun _ _ => rfl⟩

theorem mergeRequired_shape (tf : List (String × Json)) (source : Json) :
    ∃ tf', mergeRequired (.obj tf) source = .obj tf' ∧
      ∀ k, k ≠ "required" → lookupKV tf' k = lookupKV tf k := by
  cases hsr : getKey source "required" with
  | none => exact ⟨tf, by simp only [mergeRequired, hsr], fun _ _ => rfl⟩
  | some w =>
    cases w with
    | arr srcReq =>
      have hpres1 : ∀ k, k ≠ "required" →
          lookupKV (if (lookupKV tf "required").isSome then tf
            else tf ++ [("required", Json.arr [])]) k = lookupKV tf k := by
        intro k hk
        split
        · rfl
        · exact lookupKV_append_single_ne tf _ _ _ hk
      cases htr : lookupKV (if (lookupKV tf "required").isSome then tf
          else tf ++ [("required", Json.arr [])]) "required" with
      | none =>
        exact ⟨_, by simp only [mergeRequired, hsr, htr], hpres1⟩
      | some u =>
        cases u with
        | arr tr =>
          refine ⟨insertKeyFields
            (if (lookupKV tf "required").isSome then tf
              else tf ++ [("required", Json.arr [])])
            "required" (Json.arr (pushNew tr srcReq)),
            by simp only [mergeRequired, hsr, htr], ?_⟩
          intro k hk
          rw [lookupKV_insert_ne _ _ _ _ hk]
          exact hpres1 k hk
        | null => exact ⟨_, by simp only [mergeRequired, hsr, htr], hpres1⟩
        | bool b => exact ⟨_, by simp only [mergeRequired, hsr, htr], hpres1⟩
        | num n => exact ⟨_, by simp only [mergeRequired, hsr, htr], hpres1⟩
        | str t => exact ⟨_, by simp only [mergeRequired, hsr, htr], hpres1⟩
        | obj gs => exact ⟨_, by simp only [mergeRequired, hsr, htr], hpres1⟩
    | null => exact ⟨tf, by simp only [mergeRequired, hsr], fun _ _ => rfl⟩
    | bool b => exact ⟨tf, by simp only [mergeRequired, hsr], fun _ _ => rfl⟩
    | num n => exact ⟨tf, by simp only [mergeRequired, hsr], fun _ _ => rfl⟩
    | str t => exact ⟨tf, by simp only [mergeRequired, hsr], fun _ _ => rfl⟩
    | obj gs => exact ⟨tf, by simp only [mergeRequired, hsr], fun _ _ => rfl⟩

theorem mergeOther_foldl_special {sf : List (String × Json)} {k : String}
    (hk : k = "properties" ∨ k = "required") :
    ∀ {tf : List (String × Json)},
      lookupKV (sf.foldl
        (fun acc p =>
          if p.1 = "properties" ∨ p.1 = "required" ∨ (lookupKV acc p.1).isSome
          then acc else acc ++ [(p.1, p.2)]) tf) k = lookupKV tf k := by
  induction sf with
  | nil => intro tf; rfl
  | cons p sf' ih =>
    intro tf
    rw [List.foldl_cons]
    split
    · exact ih
    · rename_i hcond
      push_neg at hcond
      rw [ih, lookupKV_append_single_ne]
      intro hkp
      rcases hk with rfl | rfl
      · exact hcond.1 hkp.symm
      · exact hcond.2.1 hkp.symm

theorem mergeOther_foldl_some {sf : List (String × Json)} {k : String} {v : Json} :
    ∀ {tf : List (String × Json)}, lookupKV tf k = some v →
      lookupKV (sf.foldl
        (fun acc p =>
          if p.1 = "properties" ∨ p.1 = "required" ∨ (lookupKV acc p.1).isSome
          then acc else acc ++ [(p.1, p.2)]) tf) k = some v := by
  induction sf with
  | nil => intro tf h; exact h
  | cons p sf' ih =>
    intro tf h
    rw [List.foldl_cons]
    split
    · exact ih h
    · exact ih (lookupKV_append_some h)

theorem mergeOther_foldl_none {sf : List (String × Json)} {k : String}
    (hk1 : k ≠ "properties") (hk2 : k ≠ "required") :
    ∀ {tf : List (String × Json)}, lookupKV tf k = none →
      lookupKV (sf.foldl
        (fun acc p =>
          if p.1 = "properties" ∨ p.1 = "required" ∨ (lookupKV acc p.1).isSome
          then acc else acc ++ [(p.1, p.2)]) tf) k = lookupKV sf k := by
  induction sf with
  | nil => intro tf h; exact h
  | cons p sf' ih =>
    intro tf h
    obtain ⟨a, b⟩ := p
    rw [List.foldl_cons]
    by_cases hak : a = k
    · subst hak
      rw [if_neg (by simp [hk1, hk2, h]), lookupKV]
      rw [if_pos rfl]
      apply mergeOther_foldl_some
      rw [lookupKV_append_none h]
      simp [lookupKV]
    · rw [show lookupKV ((a, b) :: sf') k = lookupKV sf' k from by
        simp [lookupKV, hak]]
      split
      · exact ih h
      · refine ih ?_
        rw [lookupKV_append_none h]
        simp [lookupKV, hak]

theorem mergeOther_shape (tf : List (String × Json)) (source : Json) :
    ∃ tf', mergeOther (.obj tf) source = .obj tf' := by
  cases source with
  | obj sf =>
    exact ⟨sf.foldl
      (fun acc p =>
        if p.1 = "properties" ∨ p.1 = "required" ∨ (lookupKV acc p.1).isSome
        then acc else acc ++ [(p.1, p.2)]) tf, by simp only [mergeOther]⟩
  | null => exact ⟨tf, rfl⟩
  | bool b => exact ⟨tf, rfl⟩
  | num n => exact ⟨tf, rfl⟩
  | str t => exact ⟨tf, rfl⟩
  | arr xs => exact ⟨tf, rfl⟩

/-- `merge_into` on a non-`$ref` source: any key other than
`properties`/`required` follows first-write-wins. -/
theorem mergeInto_other_key (tf : List (String × Json)) (source : Json) (k : String)
    (href : hasKey source "$ref" = false) (hk1 : k ≠ "properties")
    (hk2 : k ≠ "required") :
    getKey (mergeInto (.obj tf) source) k =
      match lookupKV tf k with
      | some v => some v
      | none => getKey source k := by
  unfold mergeInto
  rw [if_neg (by simp [href])]
  obtain ⟨tf1, he1, hp1⟩ := mergeProps_shape tf source
  rw [he1]
  obtain ⟨tf2, he2, hp2⟩ := mergeRequired_shape tf1 source
  rw [he2]
  have hk12 : lookupKV tf2 k = lookupKV tf k := by
    rw [hp2 k hk2, hp1 k hk1]
  cases source with
  | obj sf =>
    rw [show mergeOther (.obj tf2) (.obj sf) =
        .obj (sf.foldl
          (fun acc p =>
            if p.1 = "properties" ∨ p.1 = "required" ∨ (lookupKV acc p.1).isSome
            then acc else acc ++ [(p.1, p.2)]) tf2) by
      simp only [mergeOther]]
    rw [getKey_obj]
    cases htf : lookupKV tf k with
    | some v =>
      rw [mergeOther_foldl_some (hk12.trans htf)]
    | none =>
      rw [mergeOther_foldl_none hk1 hk2 (hk12.trans htf), getKey_obj]
  | null => rw [show mergeOther (.obj tf2) Json.null = .obj tf2 from rfl, getKey_obj, hk12]; cases lookupKV tf k <;> rfl
  | bool b => rw [show mergeOther (.obj tf2) (Json.bool b) = .obj tf2 from rfl, getKey_obj, hk12]; cases lookupKV tf k <;> rfl
  | num n => rw [show mergeOther (.obj tf2) (Json.num n) = .obj tf2 from rfl, getKey_obj, hk12]; cases lookupKV tf k <;> rfl
  | str t => rw [show mergeOther (.obj tf2) (Json.str t) = .obj tf2 from rfl, getKey_obj, hk12]; cases lookupKV tf k <;> rfl
  | arr xs => rw [show mergeOther (.obj tf2) (Json.arr xs) = .obj tf2 from rfl, getKey_obj, hk12]; cases lookupKV tf k <;> rfl

/-- `merge_into` on a non-`$ref` source: the `required` union. -/
theorem mergeInto_required (tf : List (String × Json)) (source : Json)
    (srcReq oldReq : List Json) (href : hasKey source "$ref" = false)
    (hrt : lookupKV tf "required" = some (.arr oldReq))
    (hsr : getKey source "required" = some (.arr srcReq)) :
    getKey (mergeInto (.obj tf) source) "required" =
      some (.arr (pushNew oldReq srcReq)) := by
  unfold mergeInto
  rw [if_neg (by simp [href])]
  obtain ⟨tf1, he1, hp1⟩ := mergeProps_shape tf source
  rw [he1]
  have hrt1 : lookupKV tf1 "required" = some (.arr oldReq) := by
    rw [hp1 _ (by decide)]
    exact hrt
  have he2 : mergeRequired (.obj tf1) source =
      .obj (insertKeyFields tf1 "required" (.arr (pushNew oldReq srcReq))) := by
    simp only [mergeRequired, hsr, hrt1, Option.isSome_some, if_true]
  rw [he2]
  cases source with
  | obj sf =>
    rw [show mergeOther (.obj (insertKeyFields tf1 "required"
          (.arr (pushNew oldReq srcReq)))) (.obj sf) =
        .obj (sf.foldl
          (fun acc p =>
            if p.1 = "properties" ∨ p.1 = "required" ∨ (lookupKV acc p.1).isSome
            then acc else acc ++ [(p.1, p.2)])
          (insertKeyFields tf1 "required" (.arr (pushNew oldReq srcReq)))) by
      simp only [mergeOther]]
    rw [getKey_obj, mergeOther_foldl_special (Or.inr rfl), lookupKV_insert_self]
  | null => simp [getKey] at hsr
  | bool b => simp [getKey] at hsr
  | num n => simp [getKey] at hsr
  | str t => simp [getKey] at hsr
  | arr xs => simp [getKey] at hsr

/-- `merge_into` on a non-`$ref` source: properties are merged with
last-write-wins for the source. -/
theorem mergeInto_props (tf tp sp : List (String × Json)) (source : Json)
    (href : hasKey source "$ref" = false)
    (htp : lookupKV tf "properties" = some (.obj tp))
    (hsp : getKey source "properties" = some (.obj sp))
    (hnd : (sp.map Prod.fst).Nodup) :
    ∃ rp, getKey (mergeInto (.obj tf) source) "properties" = some (.obj rp) ∧
      ∀ k, lookupKV rp k =
        match lookupKV sp k with
        | some v => some v
        | none => lookupKV tp k := by
  unfold mergeInto
  rw [if_neg (by simp [href])]
  have he1 : mergeProps (.obj tf) source =
      .obj (insertKeyFields tf "properties"
        (.obj (sp.foldl (fun acc p => insertKeyFields acc p.1 p.2) tp))) := by
    simp only [mergeProps, hsp, htp]
  rw [he1]
  obtain ⟨tf2, he2, hp2⟩ := mergeRequired_shape _ source
  rw [he2]
  have hpp : lookupKV tf2 "properties" =
      some (.obj (sp.foldl (fun acc p => insertKeyFields acc p.1 p.2) tp)) := by
    rw [hp2 _ (by decide), lookupKV_insert_self]
  refine ⟨sp.foldl (fun acc p => insertKeyFields acc p.1 p.2) tp, ?_, ?_⟩
  · cases source with
    | obj sf =>
      rw [show mergeOther (.obj tf2) (.obj sf) =
          .obj (sf.foldl
            (fun acc p =>
              if p.1 = "properties" ∨ p.1 = "required" ∨ (lookupKV acc p.1).isSome
              then acc else acc ++ [(p.1, p.2)]) tf2) by
        simp only [mergeOther]]
      rw [getKey_obj, mergeOther_foldl_special (Or.inl rfl)]
      exact hpp
    | null => simp [getKey] at hsp
    | bool b => simp [getKey] at hsp
    | num n => simp [getKey] at hsp
    | str t => simp [getKey] at hsp
    | arr xs => simp [getKey] at hsp
  · intro k
    cases hspk : lookupKV sp k with
    | some v => exact lookupKV_foldl_insert_some hnd hspk
    | none => exact lookupKV_foldl_insert_none hspk

theorem pushNew_nodup {oldReq : List Json} (srcReq : List Json)
    (h : oldReq.Nodup) : (pushNew oldReq srcReq).Nodup := by
  induction srcReq generalizing oldReq with
  | nil => exact h
  | cons i rest ih =>
    unfold pushNew
    rw [List.foldl_cons]
    by_cases hmem : i ∈ oldReq
    · rw [if_pos hmem]
      exact ih h
    · rw [if_neg hmem]
      refine ih ?_
      simp [List.nodup_append, h, hmem]

/-! ## The operation-id synthesizer: lemmas -/

theorem lookupKV_map_withKey (g : String → Json → Json) :
    ∀ (l : List (String × Json)) (k : String),
      lookupKV (l.map (fun q => (q.1, g q.1 q.2))) k = (lookupKV l k).map (g k) := by
  intro l
  induction l with
  | nil => intro k; rfl
  | cons q rest ih =>
    intro k
    obtain ⟨a, b⟩ := q
    by_cases hk : a = k
    · subst hk
      simp [lookupKV]
    · simp [lookupKV, hk, ih]

theorem any_key_eq_isSome (fs : List (String × Json)) (k : String) :
    fs.any (fun p => p.1 = k) = (lookupKV fs k).isSome := by
  induction fs with
  | nil => rfl
  | cons p rest ih =>
    obtain ⟨a, b⟩ := p
    by_cases hk : a = k
    · subst hk
      simp [lookupKV]
    · simp [lookupKV, hk, ih]

theorem insertKeyFields_idem (fs : List (String × Json)) (k : String) (v : Json) :
    insertKeyFields (insertKeyFields fs k v) k v = insertKeyFields fs k v := by
  have hany2 : (insertKeyFields fs k v).any (fun p => p.1 = k) = true := by
    rw [any_key_eq_isSome, lookupKV_insert_self]
    rfl
  conv =>
    lhs
    rw [insertKeyFields]
  rw [if_pos hany2]
  cases hany : fs.any (fun p => p.1 = k) with
  | true =>
    rw [show insertKeyFields fs k v =
        fs.map (fun p => if p.1 = k then (k, v) else p) from by
      rw [insertKeyFields, if_pos hany]]
    rw [List.map_map]
    apply List.map_congr_left
    intro p _
    by_cases hpk : p.1 = k
    · simp [Function.comp, hpk]
    · simp [Function.comp, hpk]
  | false =>
    rw [show insertKeyFields fs k v = fs ++ [(k, v)] from by
      rw [insertKeyFields, if_neg (by simp [hany])]]
    rw [List.map_append]
    have hnk : ∀ p ∈ fs, p.1 ≠ k := by
      intro p hp hpk
      rw [show fs.any (fun p => p.1 = k) = true from
        List.any_eq_true.mpr ⟨p, hp, by simp [hpk]⟩] at hany
      exact Bool.noConfusion hany
    have h1 : ∀ l : List (String × Json), (∀ p ∈ l, p.1 ≠ k) →
        l.map (fun p => if p.1 = k then (k, v) else p) = l := by
      intro l
      induction l with
      | nil => intro _; rfl
      | cons q rest ih =>
        intro hl
        rw [List.map_cons, if_neg (hl q (List.mem_cons_self _ _)),
          ih (fun p hp => hl p (List.mem_cons_of_mem _ hp))]
    rw [h1 fs hnk]
    simp

theorem fixOp_insert (m p : String) (fields : List (String × Json))
    (hm : METHODS.contains m = true) (hid : lookupKV fields "operationId" = none) :
    fixOp m p (.obj fields) =
      .obj (fields ++ [("operationId", .str (m ++ "_" ++ slugify p))]) := by
  unfold fixOp
  rw [if_pos hm]
  simp [hid]

theorem fixOp_keep (m p : String) (fields : List (String × Json))
    (hid : (lookupKV fields "operationId").isSome = true) :
    fixOp m p (.obj fields) = .obj fields := by
  unfold fixOp
  split
  · simp [hid]
  · rfl

theorem fixOp_nonmethod (m p : String) (op : Json)
    (hm : METHODS.contains m = false) : fixOp m p op = op := by
  unfold fixOp
  rw [if_neg (fun h => Bool.noConfusion (hm ▸ h))]

theorem fixOp_idem (m p : String) (op : Json) :
    fixOp m p (fixOp m p op) = fixOp m p op := by
  cases hm : METHODS.contains m with
  | false => rw [fixOp_nonmethod m p _ hm, fixOp_nonmethod m p _ hm]
  | true =>
    cases op with
    | obj fields =>
      cases hid : lookupKV fields "operationId" with
      | some w =>
        rw [fixOp_keep m p fields (by simp [hid]), fixOp_keep m p fields (by simp [hid])]
      | none =>
        rw [fixOp_insert m p fields hm hid]
        apply fixOp_keep
        rw [lookupKV_append_none hid]
        simp [lookupKV]
    | null =>
      rw [show fixOp m p Json.null = Json.null from by unfold fixOp; split <;> rfl]
      rw [show fixOp m p Json.null = Json.null from by unfold fixOp; split <;> rfl]
    | bool b =>
      rw [show fixOp m p (Json.bool b) = Json.bool b from by unfold fixOp; split <;> rfl]
      rw [show fixOp m p (Json.bool b) = Json.bool b from by unfold fixOp; split <;> rfl]
    | num n =>
      rw [show fixOp m p (Json.num n) = Json.num n from by unfold fixOp; split <;> rfl]
      rw [show fixOp m p (Json.num n) = Json.num n from by unfold fixOp; split <;> rfl]
    | str t =>
      rw [show fixOp m p (Json.str t) = Json.str t from by unfold fixOp; split <;> rfl]
      rw [show fixOp m p (Json.str t) = Json.str t from by unfold fixOp; split <;> rfl]
    | arr xs =>
      rw [show fixOp m p (Json.arr xs) = Json.arr xs from by unfold fixOp; split <;> rfl]
      rw [show fixOp m p (Json.arr xs) = Json.arr xs from by unfold fixOp; split <;> rfl]

theorem fixPathItem_idem (p : String) (item : Json) :
    fixPathItem p (fixPathItem p item) = fixPathItem p item := by
  cases item with
  | obj ops =>
    simp only [fixPathItem, List.map_map]
    congr 1
    apply List.map_congr_left
    intro q _
    simp [Function.comp, fixOp_idem]
  | null => rfl
  | bool b => rfl
  | num n => rfl
  | str t => rfl
  | arr xs => rfl

theorem addOperationIds_idem (doc : Json) :
    addOperationIds (addOperationIds doc) = addOperationIds doc := by
  cases doc with
  | obj fs =>
    cases hlk : lookupKV fs "paths" with
    | none =>
      rw [show addOperationIds (.obj fs) = .obj fs from by
        simp only [addOperationIds, hlk]]
      rw [show addOperationIds (.obj fs) = .obj fs from by
        simp only [addOperationIds, hlk]]
    | some w =>
      cases w with
      | obj pe =>
        rw [show addOperationIds (.obj fs) =
            .obj (insertKeyFields fs "paths"
              (.obj (pe.map (fun q => (q.1, fixPathItem q.1 q.2))))) from by
          simp only [addOperationIds, hlk]]
        rw [show addOperationIds (.obj (insertKeyFields fs "paths"
              (.obj (pe.map (fun q => (q.1, fixPathItem q.1 q.2)))))) =
            .obj (insertKeyFields (insertKeyFields fs "paths"
              (.obj (pe.map (fun q => (q.1, fixPathItem q.1 q.2))))) "paths"
              (.obj ((pe.map (fun q => (q.1, fixPathItem q.1 q.2))).map
                (fun q => (q.1, fixPathItem q.1 q.2))))) from by
          simp only [addOperationIds, lookupKV_insert_self]]
        have hmm : (pe.map (fun q => (q.1, fixPathItem q.1 q.2))).map
            (fun q => (q.1, fixPathItem q.1 q.2)) =
            pe.map (fun q => (q.1, fixPathItem q.1 q.2)) := by
          rw [List.map_map]
          apply List.map_congr_left
          intro q _
          simp [Function.comp, fixPathItem_idem]
        rw [hmm, insertKeyFields_idem]
      | null =>
        rw [show addOperationIds (.obj fs) = .obj fs from by
          simp only [addOperationIds, hlk]]
        rw [show addOperationIds (.obj fs) = .obj fs from by
          simp only [addOperationIds, hlk]]
      | bool b =>
        rw [show addOperationIds (.obj fs) = .obj fs from by
          simp only [addOperationIds, hlk]]
        rw [show addOperationIds (.obj fs) = .obj fs from by
          simp only [addOperationIds, hlk]]
      | num n =>
        rw [show addOperationIds (.obj fs) = .obj fs from by
          simp only [addOperationIds, hlk]]
        rw [show addOperationIds (.obj fs) = .obj fs from by
          simp only [addOperationIds, hlk]]
      | str t =>
        rw [show addOperationIds (.obj fs) = .obj fs from by
          simp only [addOperationIds, hlk]]
        rw [show addOperationIds (.obj fs) = .obj fs from by
          simp only [addOperationIds, hlk]]
      | arr xs =>
        rw [show addOperationIds (.obj fs) = .obj fs from by
          simp only [addOperationIds, hlk]]
        rw [show addOperationIds (.obj fs) = .obj fs from by
          simp only [addOperationIds, hlk]]
  | null => rfl
  | bool b => rfl
  | num n => rfl
  | str t => rfl
  | arr xs => rfl

/-- The synthesizer, end to end: a method-keyed object operation without
an `operationId` receives the synthesized one. -/
theorem addOperationIds_spec (doc : Json) (fs pe ops fop : List (String × Json))
    (p m : String)
    (hdoc : doc = .obj fs) (hpaths : lookupKV fs "paths" = some (.obj pe))
    (hpath : lookupKV pe p = some (.obj ops)) (hop : lookupKV ops m = some (.obj fop))
    (hm : METHODS.contains m = true)
    (hid : lookupKV fop "operationId" = none) :
    ∃ pe' ops', getKey (addOperationIds doc) "paths" = some (.obj pe') ∧
      lookupKV pe' p = some (.obj ops') ∧
      lookupKV ops' m =
        some (.obj (fop ++ [("operationId", .str (m ++ "_" ++ slugify p))])) := by
  subst hdoc
  rw [show addOperationIds (.obj fs) =
      .obj (insertKeyFields fs "paths"
        (.obj (pe.map (fun q => (q.1, fixPathItem q.1 q.2))))) from by
    simp only [addOperationIds, hpaths]]
  refine ⟨pe.map (fun q => (q.1, fixPathItem q.1 q.2)),
    ops.map (fun q => (q.1, fixOp q.1 p q.2)), ?_, ?_, ?_⟩
  · rw [getKey_obj, lookupKV_insert_self]
  · rw [lookupKV_map_withKey, hpath]
    simp only [Option.map_some']
    rw [show fixPathItem p (.obj ops) = .obj (ops.map (fun q => (q.1, fixOp q.1 p q.2)))
      from by simp only [fixPathItem]]
  · rw [lookupKV_map_withKey (fun a b => fixOp a p b) ops m, hop]
    simp only [Option.map_some']
    rw [fixOp_insert m p fop hm hid]

/-! ## Claim theorems -/

/-- C1 (corrected, counterexample): the claim that no output node
contains a `oneOf` key is false: on input `{"oneOf": []}` the
simplifier leaves the empty `oneOf` key in place. -/
theorem C1_counterexample :
    simplifyF 1 (.obj [("oneOf", .arr [])]) = some (.obj [("oneOf", .arr [])]) ∧
    hasKey (.obj [("oneOf", .arr [])]) "oneOf" = true := by
  exact ⟨rfl, rfl⟩

/-- C1 (amended): for every Schema Node reachable in the Simplifier's
output (through properties, items, additionalProperties, or composition
list members), the node has no `allOf` key with an array value and no
`oneOf`/`anyOf` key with a nonempty-array value. Composition keys whose
value is not an array, or an empty-array `oneOf`/`anyOf`, may survive. -/
theorem C1_no_composition_survives (n : Nat) (s r t : Json)
    (h : simplifyF n s = some r) (hr : Reach r t) : CompositionFree t :=
  (simplify_inv n s r h t hr).1

/-- Witness for C1. -/
theorem C1_witness :
    simplifyF 1 (Json.obj []) = some (Json.obj []) ∧ CompositionFree (Json.obj []) :=
  ⟨rfl, C1_no_composition_survives 1 (Json.obj []) (Json.obj []) (Json.obj []) rfl
    (Reach.refl _)⟩

/-- C2 (corrected, counterexample): the claim's fallback is "the first
member that is not a *bare* reference". On
`{"allOf": [{"$ref": "r", "type": "string"}]}` the only member is not a
bare reference (it has `type` too), so the claim predicts it as the
replacement (it is already simplified); the code instead skips every
`$ref`-bearing member and falls back to `{"type": "object"}`. -/
theorem C2_counterexample :
    simplifyF 2 (.obj [("allOf", .arr [.obj [("$ref", .str "r"), ("type", .str "string")]])])
      = some cObj ∧
    simplifyF 1 (.obj [("$ref", .str "r"), ("type", .str "string")])
      = some (.obj [("$ref", .str "r"), ("type", .str "string")]) ∧
    cObj ≠ .obj [("$ref", .str "r"), ("type", .str "string")] := by
  refine ⟨rfl, rfl, ?_⟩
  decide

/-- C2 (amended): a node with an array-valued `allOf` is replaced by the
merge of all members into the fresh object-typed accumulator when that
merge produced at least one property; otherwise by the first member
that does not contain a `$ref` key (bare or not), or by
`{"type": "object"}` when every member contains a `$ref` key. The
replacement is recursively re-simplified and no later rule runs.
Includes one concrete instance of each branch. -/
theorem C2_allOf_rule :
    (∀ (s : Json) (L : List Json) (n : Nat), getKey s "allOf" = some (.arr L) →
      simplifyF (n + 1) s =
        simplifyF n (if hasProperties (mergeAll L) then mergeAll L
          else allOfFallback L)) ∧
    simplifyF 3 (.obj [("allOf", .arr [
        .obj [("properties", .obj [("x", .obj [("type", .str "string")])]),
              ("required", .arr [.str "a"])],
        .obj [("properties", .obj [("y", .null)]),
              ("required", .arr [.str "a", .str "b"])]])])
      = some (.obj [("type", .str "object"),
          ("properties", .obj [("x", .obj [("type", .str "string")]), ("y", .null)]),
          ("required", .arr [.str "a", .str "b"])]) ∧
    simplifyF 2 (.obj [("allOf", .arr [.obj [("$ref", .str "r")]])]) = some cObj := by
  refine ⟨?_, rfl, rfl⟩
  intro s L n h
  rw [simplifyF_succ, simplifyGo_allOf _ s L]
  rw [getKey_enumFix s "allOf" (by decide) (by decide) (by decide) (by decide) (by decide)]
  exact h

/-- Witness for C2. -/
theorem C2_witness :
    simplifyF 2 (.obj [("allOf", .arr [cObj])]) =
      simplifyF 1 (if hasProperties (mergeAll [cObj]) then mergeAll [cObj]
        else allOfFallback [cObj]) :=
  C2_allOf_rule.1 (.obj [("allOf", .arr [cObj])]) [cObj] 1 rfl

/-- C3 (confirmed): every reachable node of a simplifier output that has
an `enum` key has none of `maxLength`/`minLength`/`pattern`/`format`
and has a `type` key; and the enum-normalization step defaults `type` to
`"string"` exactly when the input node declared none. -/
theorem C3_enum_purity :
    (∀ (n : Nat) (s r t : Json), simplifyF n s = some r → Reach r t →
      (getKey t "enum").isSome →
      getKey t "maxLength" = none ∧ getKey t "minLength" = none ∧
      getKey t "pattern" = none ∧ getKey t "format" = none ∧
      (getKey t "type").isSome) ∧
    (∀ fs : List (String × Json), (lookupKV fs "enum").isSome →
      lookupKV fs "type" = none →
      getKey (enumFix (.obj fs)) "type" = some (.str "string")) ∧
    (∀ (fs : List (String × Json)) (w : Json), lookupKV fs "type" = some w →
      getKey (enumFix (.obj fs)) "type" = some w) := by
  refine ⟨?_, enumFix_type_default, fun fs w h => enumFix_type_preserved fs h⟩
  intro n s r t h hr he
  exact (simplify_inv n s r h t hr).2 he

/-- Witness for C3. -/
theorem C3_witness :
    simplifyF 1 (.obj [("enum", .arr [.str "a"]), ("maxLength", .num 5)])
      = some (.obj [("enum", .arr [.str "a"]), ("type", .str "string")]) ∧
    (getKey (.obj [("enum", .arr [.str "a"]), ("type", .str "string")]) "enum").isSome ∧
    getKey (.obj [("enum", .arr [.str "a"]), ("type", .str "string")]) "maxLength" = none ∧
    (getKey (.obj [("enum", .arr [.str "a"]), ("type", .str "string")]) "type").isSome := by
  refine ⟨rfl, rfl, ?_, ?_⟩
  · exact (C3_enum_purity.1 1 (.obj [("enum", .arr [.str "a"]), ("maxLength", .num 5)])
      _ _ rfl (Reach.refl _) rfl).1
  · exact (C3_enum_purity.1 1 (.obj [("enum", .arr [.str "a"]), ("maxLength", .num 5)])
      _ _ rfl (Reach.refl _) rfl).2.2.2.2

/-- C4 (corrected, counterexample): a source that has `$ref` *alongside*
other keys (here `properties`) is not folded into the accumulator: the
merge skips it entirely, contradicting the claim that only bare
references are skipped. -/
theorem C4_counterexample :
    hasKey (.obj [("$ref", .str "r"), ("properties", .obj [("x", .null)])]) "$ref"
      = true ∧
    hasKey (.obj [("$ref", .str "r"), ("properties", .obj [("x", .null)])]) "properties"
      = true ∧
    mergeInto initAcc (.obj [("$ref", .str "r"), ("properties", .obj [("x", .null)])])
      = initAcc := by
  exact ⟨rfl, rfl, rfl⟩

/-- C4 (amended): the Merger skips a source entirely — leaving the
accumulator unchanged — whenever the source has a `$ref` key, whether or
not other keys are present; only `$ref`-free sources are folded. -/
theorem C4_ref_skip :
    (∀ t s : Json, hasKey s "$ref" = true → mergeInto t s = t) ∧
    mergeInto cObj (.obj [("$ref", .str "x"), ("required", .arr [.str "a"])]) = cObj := by
  refine ⟨?_, rfl⟩
  intro t s h
  unfold mergeInto
  rw [if_pos h]

/-- Witness for C4. -/
theorem C4_witness :
    mergeInto initAcc (.obj [("$ref", .str "q")]) = initAcc :=
  C4_ref_skip.1 initAcc (.obj [("$ref", .str "q")]) rfl

/-- C5 (confirmed): when the Merger folds a `$ref`-free source into an
object accumulator, properties follow last-write-wins for the source,
`required` becomes the duplicate-free union in first-seen order, and
every other key follows first-write-wins; and the claim's concrete
example computes as stated. -/
theorem C5_merge_precedence :
    (∀ (tf tp sp : List (String × Json)) (source : Json),
      hasKey source "$ref" = false →
      lookupKV tf "properties" = some (.obj tp) →
      getKey source "properties" = some (.obj sp) →
      (sp.map Prod.fst).Nodup →
      ∃ rp, getKey (mergeInto (.obj tf) source) "properties" = some (.obj rp) ∧
        ∀ k, lookupKV rp k =
          match lookupKV sp k with
          | some v => some v
          | none => lookupKV tp k) ∧
    (∀ (tf : List (String × Json)) (source : Json) (srcReq oldReq : List Json),
      hasKey source "$ref" = false →
      lookupKV tf "required" = some (.arr oldReq) →
      getKey source "required" = some (.arr srcReq) →
      getKey (mergeInto (.obj tf) source) "required" =
        some (.arr (pushNew oldReq srcReq)) ∧
      (oldReq.Nodup → (pushNew oldReq srcReq).Nodup)) ∧
    (∀ (tf : List (String × Json)) (source : Json) (k : String),
      hasKey source "$ref" = false → k ≠ "properties" → k ≠ "required" →
      getKey (mergeInto (.obj tf) source) k =
        match lookupKV tf k with
        | some v => some v
        | none => getKey source k) ∧
    mergeInto (mergeInto initAcc
        (.obj [("properties", .obj [("x", .num 1)]), ("required", .arr [.str "a"])]))
        (.obj [("properties", .obj [("x", .num 2)]), ("required", .arr [.str "b"])])
      = .obj [("type", .str "object"), ("properties", .obj [("x", .num 2)]),
          ("required", .arr [.str "a", .str "b"])] := by
  refine ⟨?_, ?_, ?_, rfl⟩
  · intro tf tp sp source href htp hsp hnd
    exact mergeInto_props tf tp sp source href htp hsp hnd
  · intro tf source srcReq oldReq href hrt hsr
    exact ⟨mergeInto_required tf source srcReq oldReq href hrt hsr,
      pushNew_nodup srcReq⟩
  · intro tf source k href hk1 hk2
    exact mergeInto_other_key tf source k href hk1 hk2

/-- Witness for C5. -/
theorem C5_witness :
    (∃ rp, getKey (mergeInto (.obj [("properties", .obj [("x", .num 1)])])
        (.obj [("properties", .obj [("x", .num 2)])])) "properties"
        = some (.obj rp) ∧
      ∀ k, lookupKV rp k =
        match lookupKV [("x", Json.num 2)] k with
        | some v => some v
        | none => lookupKV [("x", Json.num 1)] k) ∧
    getKey (mergeInto (.obj [("type", .str "object")])
        (.obj [("format", .str "f")])) "format" = some (.str "f") := by
  constructor
  · exact C5_merge_precedence.1 [("properties", .obj [("x", .num 1)])]
      [("x", Json.num 1)] [("x", Json.num 2)]
      (.obj [("properties", .obj [("x", .num 2)])]) rfl rfl rfl (by decide)
  · rw [C5_merge_precedence.2.2.1 [("type", .str "object")]
      (.obj [("format", .str "f")]) "format" rfl (by decide) (by decide)]
    rfl

/-- C6 (confirmed): when no earlier composition rule fires, a node with
a nonempty-array `oneOf` (and, identically, `anyOf`) is replaced by its
first member, which is recursively re-simplified, and no later rule runs
on the original node; `{oneOf:[{type:"integer"},{type:"string"}]}`
simplifies to `{type:"integer"}`. -/
theorem C6_oneOf_collapse :
    (∀ (s x : Json) (xs : List Json) (n : Nat),
      (∀ L, getKey s "allOf" ≠ some (.arr L)) →
      getKey s "oneOf" = some (.arr (x :: xs)) →
      simplifyF (n + 1) s = simplifyF n x) ∧
    (∀ (s x : Json) (xs : List Json) (n : Nat),
      (∀ L, getKey s "allOf" ≠ some (.arr L)) →
      (∀ y ys, getKey s "oneOf" ≠ some (.arr (y :: ys))) →
      getKey s "anyOf" = some (.arr (x :: xs)) →
      simplifyF (n + 1) s = simplifyF n x) ∧
    simplifyF 2 (.obj [("oneOf", .arr [.obj [("type", .str "integer")],
        .obj [("type", .str "string")]])])
      = some (.obj [("type", .str "integer")]) := by
  have hpres : ∀ (s : Json) (k : String), k = "allOf" ∨ k = "oneOf" ∨ k = "anyOf" →
      getKey (enumFix s) k = getKey s k := by
    intro s k hk
    rcases hk with rfl | rfl | rfl
    · exact getKey_enumFix s _ (by decide) (by decide) (by decide) (by decide) (by decide)
    · exact getKey_enumFix s _ (by decide) (by decide) (by decide) (by decide) (by decide)
    · exact getKey_enumFix s _ (by decide) (by decide) (by decide) (by decide) (by decide)
  refine ⟨?_, ?_, rfl⟩
  · intro s x xs n hA hx
    rw [simplifyF_succ, simplifyGo_oneOf _ s x xs]
    · intro L hc
      rw [hpres s "allOf" (by simp)] at hc
      exact hA L hc
    · rw [hpres s "oneOf" (by simp)]
      exact hx
  · intro s x xs n hA hO hx
    rw [simplifyF_succ, simplifyGo_anyOf _ s x xs]
    · intro L hc
      rw [hpres s "allOf" (by simp)] at hc
      exact hA L hc
    · intro y ys hc
      rw [hpres s "oneOf" (by simp)] at hc
      exact hO y ys hc
    · rw [hpres s "anyOf" (by simp)]
      exact hx

/-- Witness for C6. -/
theorem C6_witness :
    simplifyF 2 (.obj [("oneOf", .arr [cObj])]) = simplifyF 1 cObj :=
  C6_oneOf_collapse.1 (.obj [("oneOf", .arr [cObj])]) cObj [] 1
    (fun _ h => Option.noConfusion h) rfl

/-- C9 (corrected, counterexample): an empty `oneOf` list does not stop
later rules: with `{"oneOf": [], "anyOf": [{"type": "string"}]}` the
`anyOf` rule still fires, replacing the node, so the empty `oneOf` key
does not remain in the output. -/
theorem C9_counterexample :
    simplifyF 2 (.obj [("oneOf", .arr []),
        ("anyOf", .arr [.obj [("type", .str "string")]])])
      = some (.obj [("type", .str "string")]) ∧
    hasKey (.obj [("type", .str "string")]) "oneOf" = false := by
  exact ⟨rfl, rfl⟩

/-- C9 (amended): when the `oneOf` (resp. `anyOf`) key maps to an empty
list and no other composition rule fires, the Simplifier performs no
replacement: processing falls through to the structural recursion and
the empty key remains in the output node. -/
theorem C9_empty_composition :
    (∀ (s : Json) (n : Nat),
      (∀ L, getKey s "allOf" ≠ some (.arr L)) →
      getKey s "oneOf" = some (.arr []) →
      (∀ y ys, getKey s "anyOf" ≠ some (.arr (y :: ys))) →
      simplifyF (n + 1) s = structuralStep (simplifyF n) (enumFix s) ∧
      ∀ r, simplifyF (n + 1) s = some r → getKey r "oneOf" = some (.arr [])) ∧
    (∀ (s : Json) (n : Nat),
      (∀ L, getKey s "allOf" ≠ some (.arr L)) →
      (∀ y ys, getKey s "oneOf" ≠ some (.arr (y :: ys))) →
      getKey s "anyOf" = some (.arr []) →
      simplifyF (n + 1) s = structuralStep (simplifyF n) (enumFix s) ∧
      ∀ r, simplifyF (n + 1) s = some r → getKey r "anyOf" = some (.arr [])) := by
  have hpres : ∀ (s : Json) (k : String),
      k = "allOf" ∨ k = "oneOf" ∨ k = "anyOf" →
      getKey (enumFix s) k = getKey s k := by
    intro s k hk
    rcases hk with rfl | rfl | rfl
    · exact getKey_enumFix s _ (by decide) (by decide) (by decide) (by decide) (by decide)
    · exact getKey_enumFix s _ (by decide) (by decide) (by decide) (by decide) (by decide)
    · exact getKey_enumFix s _ (by decide) (by decide) (by decide) (by decide) (by decide)
  constructor
  · intro s n hA hO hY
    have hA' : ∀ L, getKey (enumFix s) "allOf" ≠ some (.arr L) := by
      intro L hc
      rw [hpres s "allOf" (by simp)] at hc
      exact hA L hc
    have hO' : ∀ y ys, getKey (enumFix s) "oneOf" ≠ some (.arr (y :: ys)) := by
      intro y ys hc
      rw [hpres s "oneOf" (by simp), hO] at hc
      simp at hc
    have hY' : ∀ y ys, getKey (enumFix s) "anyOf" ≠ some (.arr (y :: ys)) := by
      intro y ys hc
      rw [hpres s "anyOf" (by simp)] at hc
      exact hY y ys hc
    have heq : simplifyF (n + 1) s = structuralStep (simplifyF n) (enumFix s) := by
      rw [simplifyF_succ]
      exact simplifyGo_structural _ s hA' hO' hY'
    refine ⟨heq, ?_⟩
    intro r hr
    rw [heq] at hr
    rw [structuralStep_getKey hr _ (by decide) (by decide) (by decide),
      hpres s "oneOf" (by simp)]
    exact hO
  · intro s n hA hO hY
    have hA' : ∀ L, getKey (enumFix s) "allOf" ≠ some (.arr L) := by
      intro L hc
      rw [hpres s "allOf" (by simp)] at hc
      exact hA L hc
    have hO' : ∀ y ys, getKey (enumFix s) "oneOf" ≠ some (.arr (y :: ys)) := by
      intro y ys hc
      rw [hpres s "oneOf" (by simp)] at hc
      exact hO y ys hc
    have hY' : ∀ y ys, getKey (enumFix s) "anyOf" ≠ some (.arr (y :: ys)) := by
      intro y ys hc
      rw [hpres s "anyOf" (by simp), hY] at hc
      simp at hc
    have heq : simplifyF (n + 1) s = structuralStep (simplifyF n) (enumFix s) := by
      rw [simplifyF_succ]
      exact simplifyGo_structural _ s hA' hO' hY'
    refine ⟨heq, ?_⟩
    intro r hr
    rw [heq] at hr
    rw [structuralStep_getKey hr _ (by decide) (by decide) (by decide),
      hpres s "anyOf" (by simp)]
    exact hY

/-- Witness for C9. -/
theorem C9_witness :
    simplifyF 1 (.obj [("oneOf", .arr [])]) =
      structuralStep (simplifyF 0) (enumFix (.obj [("oneOf", .arr [])])) ∧
    getKey (.obj [("oneOf", .arr [])]) "oneOf" = some (.arr []) := by
  refine ⟨(C9_empty_composition.1 (.obj [("oneOf", .arr [])]) 0
    (fun L h => by simp [getKey, lookupKV] at h) rfl
    (fun y ys h => by simp [getKey, lookupKV] at h)).1, ?_⟩
  exact (C9_empty_composition.1 (.obj [("oneOf", .arr [])]) 0
    (fun L h => by simp [getKey, lookupKV] at h) rfl
    (fun y ys h => by simp [getKey, lookupKV] at h)).2
    (.obj [("oneOf", .arr [])]) rfl

/-- C7 (confirmed): for a method-keyed object Operation without an
`operationId`, the Synthesizer inserts
`"<method>_<slug>"`, where the slug strips the leading `/`, turns the
remaining `/` into `_`, drops `{`/`}`, and turns `-` into `_`; in
particular `get /zones/{zone_id}/dns_records` yields
`"get_zones_zone_id_dns_records"`. -/
theorem C7_operation_id_synthesis :
    (∀ (doc : Json) (fs pe ops fop : List (String × Json)) (p m : String),
      doc = .obj fs → lookupKV fs "paths" = some (.obj pe) →
      lookupKV pe p = some (.obj ops) → lookupKV ops m = some (.obj fop) →
      METHODS.contains m = true → lookupKV fop "operationId" = none →
      ∃ pe' ops', getKey (addOperationIds doc) "paths" = some (.obj pe') ∧
        lookupKV pe' p = some (.obj ops') ∧
        lookupKV ops' m =
          some (.obj (fop ++ [("operationId", .str (m ++ "_" ++ slugify p))]))) ∧
    slugify "/zones/{zone_id}/dns_records" = "zones_zone_id_dns_records" ∧
    addOperationIds (.obj [("paths", .obj [("/zones/{zone_id}/dns_records",
        .obj [("get", .obj [])])])])
      = .obj [("paths", .obj [("/zones/{zone_id}/dns_records",
          .obj [("get", .obj [("operationId",
            .str "get_zones_zone_id_dns_records")])])])] := by
  refine ⟨addOperationIds_spec, by decide, by decide⟩

/-- Witness for C7. -/
theorem C7_witness :
    ∃ pe' ops', getKey (addOperationIds (.obj [("paths",
        .obj [("/zones", .obj [("get", .obj [])])])])) "paths" = some (.obj pe') ∧
      lookupKV pe' "/zones" = some (.obj ops') ∧
      lookupKV ops' "get" =
        some (.obj [("operationId", .str ("get" ++ "_" ++ slugify "/zones"))]) := by
  have h := C7_operation_id_synthesis.1
    (.obj [("paths", .obj [("/zones", .obj [("get", .obj [])])])])
    [("paths", .obj [("/zones", .obj [("get", .obj [])])])]
    [("/zones", .obj [("get", .obj [])])] [("get", .obj [])] []
    "/zones" "get" rfl rfl rfl rfl (by decide) rfl
  simpa using h

/-- C8 (confirmed): the Synthesizer pass is idempotent on every document,
and an Operation that already carries an `operationId` (here
`"listZones"` under `get /zones`) is left unchanged. -/
theorem C8_synthesizer_idempotent :
    (∀ doc : Json, addOperationIds (addOperationIds doc) = addOperationIds doc) ∧
    fixOp "get" "/zones" (.obj [("operationId", .str "listZones")])
      = .obj [("operationId", .str "listZones")] ∧
    addOperationIds (.obj [("paths", .obj [("/zones",
        .obj [("get", .obj [("operationId", .str "listZones")])])])])
      = .obj [("paths", .obj [("/zones",
          .obj [("get", .obj [("operationId", .str "listZones")])])])] := by
  refine ⟨addOperationIds_idem, by decide, by decide⟩

/-- C10 (confirmed): the simplifier terminates on every finite JSON
value — for every input some fuel yields a result, and the result is
stable under additional fuel, so `simplify_schema` is definable as a
total function. -/
theorem C10_simplifier_terminates :
    (∀ v : Json, ∃ n r, simplifyF n v = some r) ∧
    (∀ (n m : Nat) (s r : Json), n ≤ m → simplifyF n s = some r →
      simplifyF m s = some r) :=
  ⟨simplifyF_terminates, simplifyF_mono⟩

/-- Witness for C10. -/
theorem C10_witness : simplifyF 2 (Json.obj []) = some (Json.obj []) :=
  C10_simplifier_terminates.2 1 2 (Json.obj []) (Json.obj []) (by decide) rfl

end CfApi
